import Mathlib

set_option maxRecDepth 4000000

/-!
Shallow embedding of the actuation core of the robocode repository
(motor-performance table, current clamp, PID, servo accumulator, PWM bridge,
allocation solver), over exact rationals, together with proofs settling the
frozen claims C1 - C10.  Every definition is translated from the Rust source;
the one exception is marked with a doc comment starting with
`Modelled from the spec:`.
-/

namespace Robocode

/-- Spin direction of a thruster propeller (src/motor_math/src/lib.rs). -/
inductive Direction where
  | Clockwise
  | CounterClockwise
deriving DecidableEq, Repr

/-- Interpolation policy for motor-performance lookups
(src/motor_math/src/motor_preformance.rs).  The source variant named
Direction is called DirectionOnly here to avoid clashing with the
Direction type. -/
inductive Interpolation where
  | LerpDirection (dir : Direction)
  | DirectionOnly (dir : Direction)
  | Lerp
  | OriginalData
deriving DecidableEq, Repr

/-- One calibration record of the motor-performance table
(struct MotorRecord, motor_preformance.rs). -/
structure MotorRecord (α : Type) where
  current : α
  force : α
  pwm : α
  rpm : α
  voltage : α
  power : α
  efficiency : α
deriving DecidableEq, Repr

instance : Inhabited (MotorRecord ℚ) := ⟨⟨0, 0, 0, 0, 0, 0, 0⟩⟩

/-- Scalar linear interpolation, fn lerp in motor_preformance.rs. -/
def lerpQ (a b alpha : ℚ) : ℚ := (1 - alpha) * a + alpha * b

/-- Rust f32::clamp / Ord::clamp semantics: min (max x lo) hi. -/
def clampQ (x lo hi : ℚ) : ℚ := min (max x lo) hi

/-- MotorRecord::lerp: field-wise interpolation; when extrapolate is false
the parameter is clamped to the unit interval. -/
def MotorRecord.lerp (self other : MotorRecord ℚ) (alpha : ℚ) (extrapolate : Bool) :
    MotorRecord ℚ :=
  let alpha := if !extrapolate then clampQ alpha 0 1 else alpha
  { current := lerpQ self.current other.current alpha
    force := lerpQ self.force other.force alpha
    pwm := lerpQ self.pwm other.pwm alpha
    rpm := lerpQ self.rpm other.rpm alpha
    voltage := lerpQ self.voltage other.voltage alpha
    power := lerpQ self.power other.power alpha
    efficiency := lerpQ self.efficiency other.efficiency alpha }

/-- MotorData::interpolate (motor_preformance.rs lines 98-150): first stage
picks a lerp of the bracketing records (Lerp family) or the nearer bracket
(nearest family); the second stage mirrors the raw pwm signal around the
neutral value (3000 - pwm, with 3000 = 2 * 1500) for counter-clockwise
direction modes. -/
def interpolate (a b : MotorRecord ℚ) (value va vb : ℚ)
    (interp : Interpolation) (extrapolate : Bool) : MotorRecord ℚ :=
  let record :=
    match interp with
    | .LerpDirection _ | .Lerp =>
      let alpha := (value - va) / (vb - va)
      a.lerp b alpha extrapolate
    | .DirectionOnly _ | .OriginalData =>
      let dist_a := |va - value|
      let dist_b := |vb - value|
      if dist_a ≤ dist_b then a else b
  match interp with
  | .LerpDirection dir | .DirectionOnly dir =>
    match dir with
    | .CounterClockwise => { record with pwm := 3000 - record.pwm }
    | .Clockwise => record
  | .Lerp | .OriginalData => record

/-! PID controller, src/common/src/components/pid.rs. -/

/-- PidConfig (pid.rs). -/
structure PidConfig where
  kp : ℚ
  ki : ℚ
  kd : ℚ
  d_alpha : ℚ
  i_zone : ℚ
  max_integral : ℚ
  max_output : ℚ
deriving DecidableEq, Repr

/-- PidResult (pid.rs). -/
structure PidResult where
  error : ℚ
  p : ℚ
  i : ℚ
  d : ℚ
  correction : ℚ
deriving DecidableEq, Repr

/-- PidController state (pid.rs). -/
structure PidController where
  last_error : Option ℚ
  integral : ℚ
deriving DecidableEq, Repr

/-- PidController::new. -/
def PidController.new : PidController := ⟨none, 0⟩

/-- PidController::update (pid.rs lines 52-95), translated statement by
statement.  The derivative branch stores the filtered error in last_error,
and the next source line (72) unconditionally overwrites last_error with the
raw error; both writes are kept here in order. -/
def PidController.update (self : PidController) (error : ℚ) (config : PidConfig)
    (interval : ℚ) : PidController × PidResult :=
  let integral0 := self.integral + error * interval
  let integral1 := clampQ integral0 (-config.max_integral) config.max_integral
  let proportional := error
  let integralVal := integral1
  let step1 : ℚ × Option ℚ :=
    match self.last_error with
    | some last_error =>
      let filtered_error := error * config.d_alpha + last_error * (1 - config.d_alpha)
      ((filtered_error - last_error) / interval, some filtered_error)
    | none => (0, some error)
  let derivative := step1.1
  -- source line 72: self.last_error = Some(error), overwriting the branch write
  let last_error2 : Option ℚ := some error
  let p := config.kp * proportional
  let i := config.ki * integralVal
  let d := config.kd * derivative
  let step2 : ℚ × ℚ := if |error| < config.i_zone then (i, integral1) else (0, 0)
  let correction := clampQ (p + step2.1 + d) (-config.max_output) config.max_output
  (⟨last_error2, step2.2⟩, ⟨error, p, step2.1, d, correction⟩)

/-! PWM hardware bridge state machine,
src/robot/src/plugins/actuators/hardware/pwm.rs.  Time is modelled in
microseconds as a natural number; each loop cycle observes the time `now`. -/

/-- Armed component (common). -/
inductive Armed where
  | Armed
  | Disarmed
deriving DecidableEq, Repr

/-- PwmEvent (pwm.rs).  Channel signals are microsecond pulse widths. -/
inductive PwmEvent where
  | Arm (a : Armed)
  | Batch (signals : List ℕ)
  | Shutdown
deriving DecidableEq, Repr

/-- STOP_PWMS: the 16-channel neutral output, 1500 microseconds per channel. -/
def STOP_PWMS : List ℕ := List.replicate 16 1500

/-- max_inactive = 1/10 s, in microseconds (pwm.rs line 53). -/
def max_inactive : ℕ := 100000

/-- arming_duration = 1500 ms, in microseconds (pwm.rs line 54). -/
def arming_duration : ℕ := 1500000

/-- Mutable state of the PWM output thread (pwm.rs lines 77-83). -/
structure PwmState where
  armed : Armed
  channel_pwms : List ℕ
  last_arm_timestamp : ℕ
  last_rearm_timestamp : ℕ
  do_shutdown : Bool
deriving DecidableEq, Repr

/-- Processing of a single PwmEvent (pwm.rs lines 92-120). -/
def processEvent (now : ℕ) (s : PwmState) (e : PwmEvent) : PwmState :=
  match e with
  | .Arm .Armed =>
    { s with
      last_arm_timestamp := now
      last_rearm_timestamp := if s.armed ≠ Armed.Armed then now else s.last_rearm_timestamp
      armed := Armed.Armed }
  | .Arm .Disarmed => { s with armed := Armed.Disarmed, channel_pwms := STOP_PWMS }
  | .Batch signals =>
    if s.armed = Armed.Armed then { s with channel_pwms := signals }
    else { s with channel_pwms := STOP_PWMS }
  | .Shutdown =>
    { s with armed := Armed.Disarmed, channel_pwms := STOP_PWMS, do_shutdown := true }

/-- Drain the event channel; a Shutdown event breaks out of the drain loop. -/
def processEvents (now : ℕ) : PwmState → List PwmEvent → PwmState
  | s, [] => s
  | s, e :: rest =>
    let s1 := processEvent now s e
    if s1.do_shutdown then s1 else processEvents now s1 rest

/-- Result of one cycle of the PWM output loop: the new state, whether the
inactivity error was reported, and the pulse widths written to the chip. -/
structure PwmCycleResult where
  state : PwmState
  inactivity_error : Bool
  written : List ℕ
deriving DecidableEq, Repr

/-- One cycle of the PWM output loop body (pwm.rs lines 85-174): drain
events, apply the dead-man rule, apply the soft-start rule, sync the
disarmed-output rule, then write the channel pulse widths to the chip. -/
def pwmCycle (s : PwmState) (events : List PwmEvent) (now : ℕ) : PwmCycleResult :=
  let s1 := processEvents now s events
  let deadman : PwmState × Bool :=
    if s1.armed = Armed.Armed ∧ max_inactive < now - s1.last_arm_timestamp then
      ({ s1 with armed := Armed.Disarmed, channel_pwms := STOP_PWMS }, true)
    else (s1, false)
  let s2 := deadman.1
  let s3 :=
    if s2.armed = Armed.Armed ∧ now - s2.last_rearm_timestamp < arming_duration then
      { s2 with channel_pwms := STOP_PWMS }
    else s2
  let s4 :=
    match s3.armed with
    | Armed.Armed => s3
    | Armed.Disarmed => { s3 with channel_pwms := STOP_PWMS }
  ⟨s4, deadman.2, s4.channel_pwms⟩

/-! Servo accumulator, src/robot/src/plugins/actuators/servo.rs
(system handle_servo_input). -/

/-- MotorContributionMode (common). -/
inductive MotorContributionMode where
  | ZerothOrder
  | FirstOrder
deriving DecidableEq, Repr

/-- The per-servo components read by handle_servo_input: contribution mode,
the current MotorSignal::Percent if any, and the optional slew rate. -/
structure ServoEntity where
  mode : MotorContributionMode
  last_signal : Option ℚ
  slew_rate : Option ℚ
deriving DecidableEq, Repr

/-- Association-list update used to model HashMap::insert. -/
def upsert (l : List (ℕ × ℚ)) (k : ℕ) (v : ℚ) : List (ℕ × ℚ) :=
  if l.any (fun p => p.1 = k) then
    l.map (fun p => if p.1 = k then (k, v) else p)
  else l ++ [(k, v)]

/-- Summation of contributions per motor id (the all_inputs accumulation,
servo.rs lines 132-142). -/
def sumInputs : List (ℕ × ℚ) → List (ℕ × ℚ)
  | [] => []
  | (k, v) :: rest =>
    let acc := sumInputs rest
    match acc.lookup k with
    | some w => upsert acc k (w + v)
    | none => upsert acc k v

/-- One tick of handle_servo_input (servo.rs lines 102-214) for one robot:
sums contributions, zeroes single-reset servos, integrates the summed input
per contribution mode, then emits per-servo signals with optional
slew-rate limiting.  Returns (new MotorTargets, emitted signals). -/
def handle_servo_input (servos : List (ℕ × ServoEntity)) (last_positions : List (ℕ × ℚ))
    (contributions : List (ℕ × ℚ)) (full_reset : Bool) (reset_single : List ℕ)
    (dt : ℚ) : List (ℕ × ℚ) × List (ℕ × ℚ) :=
  let all_inputs := sumInputs contributions
  let positions0 := reset_single.foldl (fun ps id => upsert ps id 0) last_positions
  let new_positions := all_inputs.foldl (fun ps pr =>
    match servos.lookup pr.1 with
    | none => ps
    | some servo =>
      match servo.mode with
      | .ZerothOrder => upsert ps pr.1 pr.2
      | .FirstOrder =>
        let last_position :=
          if !full_reset && !(reset_single.contains pr.1) then
            (last_positions.lookup pr.1).getD 0
          else 0
        upsert ps pr.1 (clampQ (last_position + pr.2 * dt) (-1) 1)) positions0
  let signals := new_positions.filterMap (fun pr =>
    match servos.lookup pr.1 with
    | none => none
    | some servo =>
      let position :=
        match servo.last_signal, servo.slew_rate with
        | some last_position, some slew_rate =>
          let slew := slew_rate * dt
          let delta := pr.2 - last_position
          if |delta| > slew then last_position + clampQ delta (-slew) slew else pr.2
        | _, _ => pr.2
      some (pr.1, position))
  (new_positions, signals)

/-! Motor-performance record index, motor_preformance.rs lines 265-394. -/

/-- The two key suppliers passed to RecordIndex::new by the From impl
(motor_preformance.rs lines 168-169): the force field, or the current field
with the sign copied from the force field. -/
inductive KeyChoice where
  | force
  | signedCurrent
deriving DecidableEq, Repr

/-- FloatType::copysign on rationals: magnitude of a, sign of b.  The sign
of a zero b is positive, matching +0.0. -/
def copysignQ (a b : ℚ) : ℚ := if b < 0 then -|a| else |a|

/-- Evaluate a key supplier on a record. -/
def KeyChoice.eval : KeyChoice → MotorRecord ℚ → ℚ
  | .force, r => r.force
  | .signedCurrent, r => copysignQ r.current r.force

/-- Rust slice partition_point for a partitioned predicate: the length of
the leading run of elements satisfying the predicate. -/
def partitionPoint (p : α → Bool) : List α → ℕ
  | [] => 0
  | x :: xs => if p x then partitionPoint p xs + 1 else 0

/-- fn binary_search_nearest_internal (motor_preformance.rs lines 380-394). -/
def bsearchNearest (val : ℚ) (data : List (MotorRecord ℚ)) (kc : KeyChoice) :
    MotorRecord ℚ × MotorRecord ℚ :=
  let pp := partitionPoint (fun x => decide (kc.eval x < val)) data
  let idx_b := min (max pp 1) (data.length - 1)
  let idx_a := idx_b - 1
  (data.getD idx_a default, data.getD idx_b default)

/-- struct FloatCompression (motor_preformance.rs lines 278-283). -/
structure FloatCompression where
  min : ℚ
  max : ℚ
  steps : ℤ
deriving DecidableEq, Repr

/-- FloatCompression::compress: the cell index of a key value. -/
def FloatCompression.compress (self : FloatCompression) (float : ℚ) : ℤ :=
  ⌊(float - self.min) / (self.max - self.min) * ((self.steps - 1 : ℤ) : ℚ)⌋

/-- FloatCompression::decompress: the key range covered by a cell index. -/
def FloatCompression.decompress (self : FloatCompression) (idx : ℤ) : ℚ × ℚ :=
  (((idx : ℚ) + 0) / ((self.steps - 1 : ℤ) : ℚ) * (self.max - self.min) + self.min,
   ((idx : ℚ) + 1) / ((self.steps - 1 : ℤ) : ℚ) * (self.max - self.min) + self.min)

/-- One entry of the indirection table: the two bracketing records of the
cell, with an optional middle record when the cell straddles a sample. -/
abbrev IndexCell := MotorRecord ℚ × Option (MotorRecord ℚ) × MotorRecord ℚ

/-- The body of the lookup-table build loop (motor_preformance.rs lines
330-343) for one cell; none models the Data point skipped assert firing. -/
def cellAt (data : List (MotorRecord ℚ)) (kc : KeyChoice) (fc : FloatCompression)
    (step : ℕ) : Option IndexCell :=
  let lowhigh := fc.decompress step
  let lm := bsearchNearest lowhigh.1 data kc
  let mh := bsearchNearest lowhigh.2 data kc
  if lm.2 = mh.1 then some (lm.1, some lm.2, mh.2)
  else if kc.eval lm.2 > kc.eval mh.1 then some (lm.1, none, mh.2)
  else none

/-- Collect the per-cell results of the build loop, failing if any cell
fails. -/
def collectCells {γ : Type} (f : ℕ → Option γ) : List ℕ → Option (List γ)
  | [] => some []
  | j :: js =>
    match f j, collectCells f js with
    | some c, some cs => some (c :: cs)
    | _, _ => none

/-- Differences of consecutive key values (the tuple_windows map in
RecordIndex::new). -/
def pairwiseDiffs : List ℚ → List ℚ
  | a :: b :: rest => (b - a) :: pairwiseDiffs (b :: rest)
  | _ => []

/-- struct RecordIndex (motor_preformance.rs lines 265-276).  The supplier
closure is represented by its KeyChoice tag so that index values have
decidable equality. -/
structure RecordIndex where
  data : List (MotorRecord ℚ)
  lookup_table : List IndexCell
  float_compression : FloatCompression
  key : KeyChoice
deriving DecidableEq, Repr

/-- RecordIndex::new (motor_preformance.rs lines 301-351).  The length
assert and the Data point skipped assert are modelled as a none result;
the unwrap of the empty-window minimum likewise. -/
def RecordIndex.new (data : List (MotorRecord ℚ)) (kc : KeyChoice) :
    Option RecordIndex :=
  if data.length < 2 then none
  else
    let mn := kc.eval (data.headD default)
    let mx := kc.eval (data.getLastD default)
    match pairwiseDiffs (data.map kc.eval) with
    | [] => none
    | d :: ds =>
      let min_step := ds.foldl min d
      let steps := (Int.ceil ((mx - mn) / min_step)).toNat + 1
      let fc : FloatCompression := ⟨mn, mx, (steps : ℤ)⟩
      (collectCells (cellAt data kc fc) (List.range steps)).map
        (fun tbl => ⟨data, tbl, fc, kc⟩)

/-- RecordIndex::binary_search_nearest. -/
def RecordIndex.binary_search_nearest (self : RecordIndex) (val : ℚ) :
    MotorRecord ℚ × MotorRecord ℚ :=
  bsearchNearest val self.data self.key

/-- RecordIndex::lookup_nearest (motor_preformance.rs lines 360-377): O(1)
cell lookup, clamped into the table, then bracket selection by which half
of the cell the value falls in. -/
def RecordIndex.lookup_nearest (self : RecordIndex) (val : ℚ) :
    MotorRecord ℚ × MotorRecord ℚ :=
  let idx := min (self.float_compression.compress val).toNat
    (self.lookup_table.length - 1)
  let cell := self.lookup_table.getD idx (default, none, default)
  match cell.2.1 with
  | some mid =>
    if self.key.eval cell.1 ≤ val ∧ val ≤ self.key.eval mid then (cell.1, mid)
    else (mid, cell.2.2)
  | none => (cell.1, cell.2.2)

/-- struct MotorData (motor_preformance.rs lines 10-13). -/
structure MotorData where
  force_index : RecordIndex
  current_index : RecordIndex
deriving DecidableEq, Repr

/-- MotorData::lookup_by_force (motor_preformance.rs lines 16-34). -/
def MotorData.lookup_by_force (self : MotorData) (force : ℚ)
    (interp : Interpolation) (extrapolate : Bool) : MotorRecord ℚ :=
  let nr := self.force_index.lookup_nearest force
  interpolate nr.1 nr.2 force nr.1.force nr.2.force interp extrapolate

/-- MotorData::binary_search_by_force (motor_preformance.rs lines 36-54). -/
def MotorData.binary_search_by_force (self : MotorData) (force : ℚ)
    (interp : Interpolation) (extrapolate : Bool) : MotorRecord ℚ :=
  let nr := self.force_index.binary_search_nearest force
  interpolate nr.1 nr.2 force nr.1.force nr.2.force interp extrapolate

/-- MotorData::lookup_by_current (motor_preformance.rs lines 56-74). -/
def MotorData.lookup_by_current (self : MotorData) (signed_current : ℚ)
    (interp : Interpolation) (extrapolate : Bool) : MotorRecord ℚ :=
  let nr := self.current_index.lookup_nearest signed_current
  interpolate nr.1 nr.2 signed_current (copysignQ nr.1.current nr.1.force)
    (copysignQ nr.2.current nr.2.force) interp extrapolate

/-- MotorData::binary_search_by_current (motor_preformance.rs lines 76-96). -/
def MotorData.binary_search_by_current (self : MotorData) (signed_current : ℚ)
    (interp : Interpolation) (extrapolate : Bool) : MotorRecord ℚ :=
  let nr := self.current_index.binary_search_nearest signed_current
  interpolate nr.1 nr.2 signed_current (copysignQ nr.1.current nr.1.force)
    (copysignQ nr.2.current nr.2.force) interp extrapolate

/-- Stable insertion used to model Vec::sort_by with total_cmp on a key. -/
def insertSortedRec (kc : KeyChoice) (r : MotorRecord ℚ) :
    List (MotorRecord ℚ) → List (MotorRecord ℚ)
  | [] => [r]
  | x :: xs =>
    if kc.eval x ≤ kc.eval r then x :: insertSortedRec kc r xs else r :: x :: xs

/-- Stable sort by a key supplier. -/
def sortByKey (kc : KeyChoice) (l : List (MotorRecord ℚ)) : List (MotorRecord ℚ) :=
  l.foldr (insertSortedRec kc) []

/-- Inner loop of Vec::dedup_by_key: drop elements whose key equals the key
of the last kept element. -/
def dedupLoop (kc : KeyChoice) (prev : MotorRecord ℚ) :
    List (MotorRecord ℚ) → List (MotorRecord ℚ)
  | [] => []
  | b :: rest =>
    if kc.eval b = kc.eval prev then dedupLoop kc prev rest
    else b :: dedupLoop kc b rest

/-- Vec::dedup_by_key on a key supplier (keeps the first of each run). -/
def dedupByKey (kc : KeyChoice) : List (MotorRecord ℚ) → List (MotorRecord ℚ)
  | [] => []
  | a :: rest => a :: dedupLoop kc a rest

/-- impl From of a record list for MotorData (motor_preformance.rs lines
153-172): sort and dedup by force for the force index, and by signed
current for the current index; fails when either index build fails. -/
def fromRecords (value : List (MotorRecord ℚ)) : Option MotorData :=
  let force_sorted := dedupByKey .force (sortByKey .force value)
  let current_sorted := dedupByKey .signedCurrent (sortByKey .signedCurrent value)
  match RecordIndex.new force_sorted .force,
      RecordIndex.new current_sorted .signedCurrent with
  | some fi, some ci => some ⟨fi, ci⟩
  | _, _ => none

/-! Allocation solver and current clamp, src/motor_math/src/lib.rs and
src/motor_math/src/solve/reverse.rs. -/

/-- A 3-vector of rationals (nalgebra Vector3). -/
structure V3 where
  x : ℚ
  y : ℚ
  z : ℚ
deriving DecidableEq, Repr

def V3.add (a b : V3) : V3 := ⟨a.x + b.x, a.y + b.y, a.z + b.z⟩

def V3.sub (a b : V3) : V3 := ⟨a.x - b.x, a.y - b.y, a.z - b.z⟩

def V3.smul (c : ℚ) (v : V3) : V3 := ⟨c * v.x, c * v.y, c * v.z⟩

def V3.dot (a b : V3) : ℚ := a.x * b.x + a.y * b.y + a.z * b.z

def V3.normSq (a : V3) : ℚ := a.x * a.x + a.y * a.y + a.z * a.z

def V3.zero : V3 := ⟨0, 0, 0⟩

/-- struct Movement (lib.rs lines 215-222): a wrench of force and torque. -/
structure Movement where
  force : V3
  torque : V3
deriving DecidableEq, Repr

def Movement.add (a b : Movement) : Movement :=
  ⟨a.force.add b.force, a.torque.add b.torque⟩

def Movement.zero : Movement := ⟨V3.zero, V3.zero⟩

def Movement.smul (c : ℚ) (m : Movement) : Movement :=
  ⟨V3.smul c m.force, V3.smul c m.torque⟩

/-- Dot product of one 6-entry matrix row with the stacked [force; torque]
6-vector of a movement; rows are represented as movements. -/
def rowDot (row m : Movement) : ℚ :=
  row.force.dot m.force + row.torque.dot m.torque

/-- struct Motor (lib.rs lines 162-173). -/
structure Motor where
  position : V3
  orientation : V3
  direction : Direction
deriving DecidableEq, Repr

/-- struct MotorConfig (lib.rs lines 40-46): the motor list together with
the stored 6 x N wrench matrix (as its list of columns) and its stored
N x 6 pseudo-inverse (as its list of rows).  The source computes the
pseudo-inverse numerically by SVD in MotorConfig::new_raw; here both
matrices are carried as data. -/
structure MotorConfig (MotorId : Type) where
  motors : List (MotorId × Motor)
  matrix : List Movement
  pseudoInverse : List Movement
deriving DecidableEq, Repr

/-- MotorConfig::motor (lib.rs lines 104-107). -/
def MotorConfig.motor [DecidableEq MotorId] (cfg : MotorConfig MotorId)
    (id : MotorId) : Option Motor :=
  (cfg.motors.find? (fun p => decide (p.1 = id))).map (fun p => p.2)

/-- Multiply the 6 x N matrix given by its columns with a force vector. -/
def applyColumns (cols : List Movement) (g : List ℚ) : Movement :=
  (List.zipWith Movement.smul g cols).foldl Movement.add Movement.zero

/-- Multiply the N x 6 matrix given by its rows with a movement 6-vector. -/
def applyRows (rows : List Movement) (m : Movement) : List ℚ :=
  rows.map (fun r => rowDot r m)

/-- pub fn reverse_solve (reverse.rs lines 21-45): per-motor forces are the
pseudo-inverse applied to the movement vector, keyed by motor id. -/
def reverse_solve (movement : Movement) (cfg : MotorConfig MotorId) :
    List (MotorId × ℚ) :=
  (cfg.motors.map Prod.fst).zip (applyRows cfg.pseudoInverse movement)

/-- Modelled from the spec: the file solve/forward.rs is missing from the
sources (only its module declaration in solve.rs and its callers are
present).  Spec section 4.3: forward solve takes a map id to scalar force
and returns the wrench M times f; missing ids count as zero force.  The
columns of M are stored in MotorConfig.matrix aligned with
MotorConfig.motors. -/
def forward_solve [DecidableEq MotorId] (cfg : MotorConfig MotorId)
    (forces : List (MotorId × ℚ)) : Movement :=
  applyColumns cfg.matrix (cfg.motors.map (fun p => (forces.lookup p.1).getD 0))

/-- fn coerce_zero (reverse.rs lines 392-398). -/
def coerce_zero (value eps : ℚ) : ℚ := if |value| < eps then 0 else value

/-- Accumulator of the per-motor fold inside binary_search_force_ratio:
summed current, and realized force, requested force and force gap of the
worst motor so far. -/
structure BsfrAcc where
  current : ℚ
  force : ℚ
  expected : ℚ
  delta : ℚ
deriving DecidableEq, Repr

/-- The measurement pass of one loop iteration of binary_search_force_ratio
(reverse.rs lines 186-230) at scale mid. -/
def bsfrMeasure [DecidableEq MotorId] (cmds : List (MotorId × MotorRecord ℚ))
    (cfg : MotorConfig MotorId) (md : MotorData) (eps mid : ℚ) : BsfrAcc :=
  cmds.foldl (fun acc pr =>
    let dir := ((cfg.motor pr.1).map Motor.direction).getD Direction.Clockwise
    let adjusted_force := coerce_zero pr.2.force eps * mid
    let ldata := md.lookup_by_force adjusted_force (.LerpDirection dir) false
    let cur := coerce_zero |ldata.current| eps
    let freal := coerce_zero |ldata.force| eps
    let fexp := |adjusted_force|
    let delta := |fexp - freal|
    if delta > acc.delta then ⟨acc.current + cur, freal, fexp, delta⟩
    else ⟨acc.current + cur, acc.force, acc.expected, acc.delta⟩) ⟨0, 0, 0, 0⟩

/-- Loop state of binary_search_force_ratio: bracket, scale, the possibly
lowered amperage cap, remaining iterations and the learn_cap flag.  The
infinite upper bound and its current are modelled as none. -/
structure BsfrState where
  lower_bound : ℚ
  lower_current : ℚ
  upper : Option (ℚ × ℚ)
  mid : ℚ
  amperage_cap : ℚ
  max_iters : ℕ
  learn_cap : Bool
deriving DecidableEq, Repr

/-- How one run of binary_search_force_ratio returned. -/
inductive BsfrExit where
  | zeroCurrent
  | converged (mid : ℚ) (cap : ℚ)
  | exhausted (mid : ℚ)
deriving DecidableEq, Repr

/-- The value returned to the caller for each exit. -/
def BsfrExit.value : BsfrExit → ℚ
  | .zeroCurrent => 0
  | .converged mid _ => mid
  | .exhausted mid => mid

/-- One pass of the loop body of binary_search_force_ratio (reverse.rs
lines 183-295), in source order: measurement, zero-current return,
saturation branch with continue, learn-cap update, convergence return,
bracket update, next guess, iteration cap. -/
def bsfrStep [DecidableEq MotorId] (cmds : List (MotorId × MotorRecord ℚ))
    (cfg : MotorConfig MotorId) (md : MotorData) (eps : ℚ) (s : BsfrState) :
    BsfrExit ⊕ BsfrState :=
  let m := bsfrMeasure cmds cfg md eps s.mid
  if m.current = 0 then .inl .zeroCurrent
  else if |m.delta| > eps then
    .inr { s with
      lower_bound := 0, lower_current := 0
      upper := some (s.mid, m.current)
      learn_cap := true
      mid := s.mid * (m.force / m.expected) }
  else
    let cap := if s.learn_cap then min s.amperage_cap m.current else s.amperage_cap
    if |m.current - cap| < eps then .inl (.converged s.mid cap)
    else
      let br : ℚ × ℚ × Option (ℚ × ℚ) :=
        if m.current ≥ cap then (s.lower_bound, s.lower_current, some (s.mid, m.current))
        else (s.mid, m.current, s.upper)
      let mid1 :=
        match br.2.2 with
        | none => s.mid * (cap / m.current)
        | some ub =>
          let alpha := (cap - br.2.1) / (ub.2 - br.2.1)
          ub.1 * alpha + br.1 * (1 - alpha)
      if s.max_iters - 1 = 0 then .inl (.exhausted mid1)
      else .inr { lower_bound := br.1, lower_current := br.2.1, upper := br.2.2
                  mid := mid1, amperage_cap := cap, max_iters := s.max_iters - 1
                  learn_cap := false }

/-- Iterate bsfrStep with recursion fuel; none means the fuel ran out with
the loop still running (the Rust loop has no such bound). -/
def bsfrRun [DecidableEq MotorId] (cmds : List (MotorId × MotorRecord ℚ))
    (cfg : MotorConfig MotorId) (md : MotorData) (eps : ℚ) :
    BsfrState → ℕ → Option BsfrExit
  | _, 0 => none
  | s, fuel + 1 =>
    match bsfrStep cmds cfg md eps s with
    | .inl e => some e
    | .inr s1 => bsfrRun cmds cfg md eps s1 fuel

/-- Initial loop state (reverse.rs lines 175-181). -/
def bsfrInit (cap : ℚ) : BsfrState := ⟨0, 0, none, 1, cap, 15, false⟩

/-- pub fn binary_search_force_ratio (reverse.rs lines 168-296), run with
the given recursion fuel. -/
def forceRatioSearch [DecidableEq MotorId] (cmds : List (MotorId × MotorRecord ℚ))
    (cfg : MotorConfig MotorId) (md : MotorData) (cap eps : ℚ) (fuel : ℕ) :
    Option ℚ :=
  (bsfrRun cmds cfg md eps (bsfrInit cap) fuel).map BsfrExit.value

/-- Sum of the signed current fields of a command map (the guard sum in
clamp_amperage, reverse.rs line 134). -/
def totalCurrent (cmds : List (MotorId × MotorRecord ℚ)) : ℚ :=
  (cmds.map (fun pr => pr.2.current)).sum

/-- Sum of absolute per-motor currents of a command map (the total the spec
speaks about). -/
def totalAbsCurrent (cmds : List (MotorId × MotorRecord ℚ)) : ℚ :=
  (cmds.map (fun pr => |pr.2.current|)).sum

/-- pub fn clamp_amperage (reverse.rs lines 126-164): return the commands
unchanged when the summed current is within the cap, otherwise rescale
every force by the searched ratio and look every record up again. -/
def clamp_amperage [DecidableEq MotorId] (cmds : List (MotorId × MotorRecord ℚ))
    (cfg : MotorConfig MotorId) (md : MotorData) (amperage_cap eps : ℚ)
    (fuel : ℕ) : Option (List (MotorId × MotorRecord ℚ)) :=
  if totalCurrent cmds ≤ amperage_cap then some cmds
  else
    (forceRatioSearch cmds cfg md amperage_cap eps fuel).map (fun r =>
      cmds.map (fun pr =>
        let dir := ((cfg.motor pr.1).map Motor.direction).getD Direction.Clockwise
        (pr.1, md.lookup_by_force (pr.2.force * r) (.LerpDirection dir) false)))

/-! A model of IEEE float special values, sufficient for running
RecordIndex::new on a calibration table containing a NaN key (claim C9).
Finite values are exact rationals; nan is the positive quiet NaN. -/

/-- A float: finite rational, positive NaN, or an infinity. -/
inductive FloatW where
  | fin (q : ℚ)
  | nan
  | inf
  | ninf
deriving DecidableEq, Repr

instance : Inhabited FloatW := ⟨.fin 0⟩

/-- IEEE subtraction. -/
def FloatW.sub : FloatW → FloatW → FloatW
  | .nan, _ => .nan
  | _, .nan => .nan
  | .fin a, .fin b => .fin (a - b)
  | .fin _, .inf => .ninf
  | .fin _, .ninf => .inf
  | .inf, .fin _ => .inf
  | .inf, .ninf => .inf
  | .ninf, .fin _ => .ninf
  | .ninf, .inf => .ninf
  | .inf, .inf => .nan
  | .ninf, .ninf => .nan

/-- IEEE addition. -/
def FloatW.addW : FloatW → FloatW → FloatW
  | .nan, _ => .nan
  | _, .nan => .nan
  | .fin a, .fin b => .fin (a + b)
  | .fin _, .inf => .inf
  | .fin _, .ninf => .ninf
  | .inf, .fin _ => .inf
  | .ninf, .fin _ => .ninf
  | .inf, .inf => .inf
  | .ninf, .ninf => .ninf
  | .inf, .ninf => .nan
  | .ninf, .inf => .nan

/-- IEEE multiplication. -/
def FloatW.mulW : FloatW → FloatW → FloatW
  | .nan, _ => .nan
  | _, .nan => .nan
  | .fin a, .fin b => .fin (a * b)
  | .fin a, .inf => if a = 0 then .nan else if 0 < a then .inf else .ninf
  | .inf, .fin a => if a = 0 then .nan else if 0 < a then .inf else .ninf
  | .fin a, .ninf => if a = 0 then .nan else if 0 < a then .ninf else .inf
  | .ninf, .fin a => if a = 0 then .nan else if 0 < a then .ninf else .inf
  | .inf, .inf => .inf
  | .inf, .ninf => .ninf
  | .ninf, .inf => .ninf
  | .ninf, .ninf => .inf

/-- IEEE division (a zero divisor has positive sign, as +0.0 does). -/
def FloatW.divW : FloatW → FloatW → FloatW
  | .nan, _ => .nan
  | _, .nan => .nan
  | .fin a, .fin b =>
    if b = 0 then (if a = 0 then .nan else if 0 < a then .inf else .ninf)
    else .fin (a / b)
  | .fin _, .inf => .fin 0
  | .fin _, .ninf => .fin 0
  | .inf, .fin b => if b < 0 then .ninf else .inf
  | .ninf, .fin b => if b < 0 then .inf else .ninf
  | _, _ => .nan

/-- IEEE strict less-than: false on any NaN operand. -/
def FloatW.lt : FloatW → FloatW → Bool
  | .nan, _ => false
  | _, .nan => false
  | .fin a, .fin b => decide (a < b)
  | .fin _, .inf => true
  | .inf, .fin _ => false
  | .ninf, .fin _ => true
  | .fin _, .ninf => false
  | .ninf, .inf => true
  | .inf, .ninf => false
  | .inf, .inf => false
  | .ninf, .ninf => false

/-- IEEE equality: false on any NaN operand. -/
def FloatW.ieeeEq : FloatW → FloatW → Bool
  | .nan, _ => false
  | _, .nan => false
  | .fin a, .fin b => decide (a = b)
  | .inf, .inf => true
  | .ninf, .ninf => true
  | _, _ => false

/-- f32::total_cmp as a total order: negative infinity, then finites, then
positive infinity, then the positive NaN. -/
def FloatW.rank : FloatW → ℕ
  | .ninf => 0
  | .fin _ => 1
  | .inf => 2
  | .nan => 3

/-- total_cmp comparison, as less-or-equal. -/
def FloatW.totalLe (a b : FloatW) : Bool :=
  match a, b with
  | .fin x, .fin y => decide (x ≤ y)
  | _, _ => decide (a.rank ≤ b.rank)

/-- Sign bit test: negative finite values and negative infinity (the
modelled NaN is the positive one; rationals have no negative zero). -/
def FloatW.isSignNeg : FloatW → Bool
  | .fin q => decide (q < 0)
  | .ninf => true
  | _ => false

/-- IEEE absolute value. -/
def FloatW.absW : FloatW → FloatW
  | .fin q => .fin |q|
  | .nan => .nan
  | .inf => .inf
  | .ninf => .inf

/-- IEEE negation (restricted to the values this model can express). -/
def FloatW.negW : FloatW → FloatW
  | .fin q => .fin (-q)
  | .nan => .nan
  | .inf => .ninf
  | .ninf => .inf

/-- FloatType::copysign: magnitude of a, sign bit of b. -/
def copysignW (a b : FloatW) : FloatW :=
  if b.isSignNeg then a.absW.negW else a.absW

/-- The ceil-then-cast-to-usize composite in RecordIndex::new: NaN and
negative values cast to zero, positive infinity saturates at usize MAX. -/
def FloatW.ceilToNat : FloatW → ℕ
  | .fin q => (Int.ceil q).toNat
  | .nan => 0
  | .ninf => 0
  | .inf => 18446744073709551615

/-- The key suppliers over the float model. -/
def KeyChoice.evalW : KeyChoice → MotorRecord FloatW → FloatW
  | .force, r => r.force
  | .signedCurrent, r => copysignW r.current r.force

/-- IEEE field-wise record equality (derive PartialEq on MotorRecord). -/
def recordEqW (a b : MotorRecord FloatW) : Bool :=
  a.current.ieeeEq b.current && a.force.ieeeEq b.force && a.pwm.ieeeEq b.pwm &&
  a.rpm.ieeeEq b.rpm && a.voltage.ieeeEq b.voltage && a.power.ieeeEq b.power &&
  a.efficiency.ieeeEq b.efficiency

instance : Inhabited (MotorRecord FloatW) :=
  ⟨⟨.fin 0, .fin 0, .fin 0, .fin 0, .fin 0, .fin 0, .fin 0⟩⟩

/-- binary_search_nearest_internal over the float model. -/
def bsearchNearestW (val : FloatW) (data : List (MotorRecord FloatW))
    (kc : KeyChoice) : MotorRecord FloatW × MotorRecord FloatW :=
  let pp := partitionPoint (fun x => (kc.evalW x).lt val) data
  let idx_b := min (max pp 1) (data.length - 1)
  let idx_a := idx_b - 1
  (data.getD idx_a default, data.getD idx_b default)

/-- FloatCompression::decompress over the float model. -/
def decompressW (mn mx : FloatW) (steps : ℤ) (idx : ℤ) : FloatW × FloatW :=
  ((((FloatW.fin idx).addW (.fin 0)).divW (.fin ((steps - 1 : ℤ) : ℚ))).mulW
      (mx.sub mn) |>.addW mn,
   (((FloatW.fin idx).addW (.fin 1)).divW (.fin ((steps - 1 : ℤ) : ℚ))).mulW
      (mx.sub mn) |>.addW mn)

/-- The build-loop body of RecordIndex::new over the float model. -/
def cellAtW (data : List (MotorRecord FloatW)) (kc : KeyChoice) (mn mx : FloatW)
    (steps : ℤ) (step : ℕ) :
    Option (MotorRecord FloatW × Option (MotorRecord FloatW) × MotorRecord FloatW) :=
  let lowhigh := decompressW mn mx steps step
  let lm := bsearchNearestW lowhigh.1 data kc
  let mh := bsearchNearestW lowhigh.2 data kc
  if recordEqW lm.2 mh.1 then some (lm.1, some lm.2, mh.2)
  else if (kc.evalW mh.1).lt (kc.evalW lm.2) then some (lm.1, none, mh.2)
  else none

/-- Differences of consecutive keys over the float model. -/
def pairwiseDiffsW : List FloatW → List FloatW
  | a :: b :: rest => (b.sub a) :: pairwiseDiffsW (b :: rest)
  | _ => []

/-- RecordIndex::new over the float model, returning the lookup table on
success. -/
def recordIndexNewW (data : List (MotorRecord FloatW)) (kc : KeyChoice) :
    Option (List (MotorRecord FloatW × Option (MotorRecord FloatW) × MotorRecord FloatW)) :=
  if data.length < 2 then none
  else
    let mn := kc.evalW (data.headD default)
    let mx := kc.evalW (data.getLastD default)
    match pairwiseDiffsW (data.map kc.evalW) with
    | [] => none
    | d :: ds =>
      let min_step := ds.foldl (fun a b => if a.totalLe b then a else b) d
      let steps := ((mx.sub mn).divW min_step).ceilToNat + 1
      collectCells (cellAtW data kc mn mx (steps : ℤ)) (List.range steps)

/-- Stable insertion sort by total_cmp over the float model. -/
def insertSortedRecW (kc : KeyChoice) (r : MotorRecord FloatW) :
    List (MotorRecord FloatW) → List (MotorRecord FloatW)
  | [] => [r]
  | x :: xs =>
    if (kc.evalW x).totalLe (kc.evalW r) then x :: insertSortedRecW kc r xs
    else r :: x :: xs

/-- Vec::sort_by with total_cmp on a key, over the float model. -/
def sortByKeyW (kc : KeyChoice) (l : List (MotorRecord FloatW)) :
    List (MotorRecord FloatW) :=
  l.foldr (insertSortedRecW kc) []

/-- Vec::dedup_by_key over the float model: IEEE key equality, so NaN keys
never compare equal. -/
def dedupLoopW (kc : KeyChoice) (prev : MotorRecord FloatW) :
    List (MotorRecord FloatW) → List (MotorRecord FloatW)
  | [] => []
  | b :: rest =>
    if (kc.evalW b).ieeeEq (kc.evalW prev) then dedupLoopW kc prev rest
    else b :: dedupLoopW kc b rest

/-- Vec::dedup_by_key over the float model. -/
def dedupByKeyW (kc : KeyChoice) :
    List (MotorRecord FloatW) → List (MotorRecord FloatW)
  | [] => []
  | a :: rest => a :: dedupLoopW kc a rest

/-- impl From of a record list for MotorData, over the float model: both
index builds must succeed. -/
def fromRecordsW (value : List (MotorRecord FloatW)) : Bool :=
  let force_sorted := dedupByKeyW .force (sortByKeyW .force value)
  let current_sorted := dedupByKeyW .signedCurrent (sortByKeyW .signedCurrent value)
  (recordIndexNewW force_sorted .force).isSome &&
    (recordIndexNewW current_sorted .signedCurrent).isSome

/-! Concrete example data used by witnesses and counterexamples. -/

/-- A two-record calibration table: force 1 at 10 A, force 2 at 20 A. -/
def r0T2 : MotorRecord ℚ := ⟨10, 1, 1100, 0, 0, 0, 0⟩

/-- Second record of the two-record table. -/
def r1T2 : MotorRecord ℚ := ⟨20, 2, 1900, 0, 0, 0, 0⟩

/-- A three-record table with a steep initial current slope: force 0 at
0 A, force 1 at 12 A, force 4 at 24 A. -/
def e0T3 : MotorRecord ℚ := ⟨0, 0, 1500, 0, 0, 0, 0⟩

/-- Second record of the three-record table. -/
def e1T3 : MotorRecord ℚ := ⟨12, 1, 1600, 0, 0, 0, 0⟩

/-- Third record of the three-record table. -/
def e2T3 : MotorRecord ℚ := ⟨24, 4, 1900, 0, 0, 0, 0⟩

/-- A placeholder MotorData for Option defaults. -/
def mdDefault : MotorData :=
  ⟨⟨[], [], ⟨0, 0, 0⟩, .force⟩, ⟨[], [], ⟨0, 0, 0⟩, .force⟩⟩

/-- The MotorData built from the two-record table. -/
def mdT2 : MotorData := (fromRecords [r0T2, r1T2]).getD mdDefault

/-- The MotorData built from the three-record table. -/
def mdT3 : MotorData := (fromRecords [e0T3, e1T3, e2T3]).getD mdDefault

/-- A clockwise motor at the origin. -/
def motorCW : Motor := ⟨V3.zero, V3.zero, Direction.Clockwise⟩

/-- A two-motor configuration, both clockwise (matrix data unused by the
current clamp). -/
def cfg2 : MotorConfig ℕ := ⟨[(0, motorCW), (1, motorCW)], [], []⟩

/-- Command map requesting forces 4 and 1 over the two-record table, whose
covered force range is only 1 to 2: motor 0 saturates high, motor 1
saturates low once the scale shrinks. -/
def cmds4 : List (ℕ × MotorRecord ℚ) :=
  [(0, ⟨40, 4, 0, 0, 0, 0, 0⟩), (1, ⟨10, 1, 0, 0, 0, 0, 0⟩)]

/-- The record of the three-record table looked up at force 1/4 (3 A). -/
def recB : MotorRecord ℚ := ⟨3, 1/4, 1525, 0, 0, 0, 0⟩

/-- Command map over the three-record table: one motor at force 4 (24 A)
and one at force 1/4 (3 A), whose force is below the search epsilon 1/2. -/
def cmds3 : List (ℕ × MotorRecord ℚ) := [(0, e2T3), (1, recB)]

/-- Command map for convergence witnesses: one motor at force 2 (20 A). -/
def cmdsW : List (ℕ × MotorRecord ℚ) := [(0, r1T2)]

/-- PID gains: pure derivative with a one-half low-pass. -/
def cfg6 : PidConfig := ⟨0, 0, 1, 1/2, 1, 10, 10⟩

/-- A single first-order servo on channel 0, without slew rate. -/
def servoS : List (ℕ × ServoEntity) := [(0, ⟨.FirstOrder, some 0, none⟩)]

/-- One tick of the servo system with a single +1/2 contribution for
channel 0 at dt = 1/10, given previous positions and single-reset events. -/
def servoTick (ps : List (ℕ × ℚ)) (rs : List ℕ) : List (ℕ × ℚ) :=
  (handle_servo_input servoS ps [(0, 1/2)] false rs (1/10)).1

/-- Float-model record with force 0. -/
def recW0 : MotorRecord FloatW :=
  ⟨.fin 1, .fin 0, .fin 1500, .fin 0, .fin 0, .fin 0, .fin 0⟩

/-- Float-model record with force 1. -/
def recW1 : MotorRecord FloatW :=
  ⟨.fin 2, .fin 1, .fin 1600, .fin 0, .fin 0, .fin 0, .fin 0⟩

/-- Float-model record whose force key is NaN. -/
def recWn : MotorRecord FloatW :=
  ⟨.fin 3, .nan, .fin 1700, .fin 0, .fin 0, .fin 0, .fin 0⟩

/-- A single-thruster configuration pointing along x at the origin, with
its exact pseudo-inverse. -/
def motor1 : Motor := ⟨V3.zero, ⟨1, 0, 0⟩, .Clockwise⟩

/-- The single wrench-matrix column of the one-thruster configuration. -/
def col1 : Movement := ⟨⟨1, 0, 0⟩, ⟨0, 0, 0⟩⟩

/-- The one-thruster configuration. -/
def cfg1 : MotorConfig ℕ := ⟨[(0, motor1)], [col1], [col1]⟩

/-- The wrench 2 * col1, in the column span of cfg1's matrix. -/
def wEx : Movement := ⟨⟨2, 0, 0⟩, ⟨0, 0, 0⟩⟩

/-- The loop state reached after one pass on the cmds4 input. -/
def s4a : BsfrState := ⟨0, 0, some (1, 30), 1/2, 100, 15, true⟩

/-- The loop state reached after two passes on the cmds4 input. -/
def s4b : BsfrState := ⟨0, 0, some (1/2, 30), 1, 100, 15, true⟩

/-! Claim theorems. -/

/-- C4.  The claim says binary_search_force_ratio terminates within 15
iterations of its search loop for every input.  On the cmds4 input over the
two-record table (epsilon 1/10, cap 100) the saturation branch alternates
between the two motors: its continue statement skips the iteration-cap
decrement, the loop state repeats with period two, and the function never
returns: the fueled embedding returns none for every fuel. -/
theorem C4_search_nontermination :
    ∀ fuel : ℕ, bsfrRun cmds4 cfg2 mdT2 (1/10) (bsfrInit 100) fuel = none := by
  have h0 : bsfrStep cmds4 cfg2 mdT2 (1/10) (bsfrInit 100) = Sum.inr s4a := by
    with_unfolding_all decide
  have ha : bsfrStep cmds4 cfg2 mdT2 (1/10) s4a = Sum.inr s4b := by
    with_unfolding_all decide
  have hb : bsfrStep cmds4 cfg2 mdT2 (1/10) s4b = Sum.inr s4a := by
    with_unfolding_all decide
  have key : ∀ n : ℕ, bsfrRun cmds4 cfg2 mdT2 (1/10) s4a n = none ∧
      bsfrRun cmds4 cfg2 mdT2 (1/10) s4b n = none := by
    intro n
    induction n with
    | zero => exact ⟨rfl, rfl⟩
    | succ n ih =>
      constructor
      · show (match bsfrStep cmds4 cfg2 mdT2 (1/10) s4a with
          | .inl e => some e
          | .inr s1 => bsfrRun cmds4 cfg2 mdT2 (1/10) s1 n) = none
        rw [ha]
        exact ih.2
      · show (match bsfrStep cmds4 cfg2 mdT2 (1/10) s4b with
          | .inl e => some e
          | .inr s1 => bsfrRun cmds4 cfg2 mdT2 (1/10) s1 n) = none
        rw [hb]
        exact ih.1
  intro fuel
  match fuel with
  | 0 => rfl
  | n + 1 =>
    show (match bsfrStep cmds4 cfg2 mdT2 (1/10) (bsfrInit 100) with
      | .inl e => some e
      | .inr s1 => bsfrRun cmds4 cfg2 mdT2 (1/10) s1 n) = none
    rw [h0]
    exact (key n).1

/-- C5.  Current-clamp idempotence: when the total of absolute per-motor
currents of the input command map is at most the amperage cap,
clamp_amperage returns the input unchanged without running the search (the
source guard compares the signed sum, which is at most the absolute sum). -/
theorem C5_clamp_idempotent {MotorId : Type} [DecidableEq MotorId]
    (cmds : List (MotorId × MotorRecord ℚ)) (cfg : MotorConfig MotorId)
    (md : MotorData) (cap eps : ℚ) (fuel : ℕ)
    (h : totalAbsCurrent cmds ≤ cap) :
    clamp_amperage cmds cfg md cap eps fuel = some cmds := by
  have hle : totalCurrent cmds ≤ totalAbsCurrent cmds := by
    unfold totalCurrent totalAbsCurrent
    exact List.sum_le_sum fun i _ => le_abs_self _
  unfold clamp_amperage
  rw [if_pos (le_trans hle h)]

/-- C5 witness: a concrete command map drawing 20 A against a 25 A cap is
returned unchanged. -/
theorem C5_witness : clamp_amperage cmdsW cfg2 mdT2 25 (1/10) 15 = some cmdsW :=
  C5_clamp_idempotent cmdsW cfg2 mdT2 25 (1/10) 15 (by with_unfolding_all decide)

/-- C6 counterexample.  The claim says the stored previous error is set to
the filtered error e_f after each update.  Starting from a controller whose
stored error is 0 (after a first update with error 0) and updating with
error 1, d_alpha 1/2, the filtered error is 1/2, but the controller stores
the raw error 1: source line 72 overwrites the filtered write. -/
theorem C6_counterexample :
    ((((PidController.new.update 0 cfg6 1).1).update 1 cfg6 1).1).last_error = some 1 ∧
      (1 : ℚ) ≠ 1 * cfg6.d_alpha + 0 * (1 - cfg6.d_alpha) := by
  with_unfolding_all decide

/-- C6 amended.  On every update after the first, with stored previous
error p, the derivative term is kd * ((e_f - p) / dt) with
e_f = d_alpha * e + (1 - d_alpha) * p, but the stored previous error
becomes the raw error e (not e_f); on the first update the derivative term
is 0 and the raw error is stored. -/
theorem C6_pid_derivative (s : PidController) (cfg : PidConfig) (e dt p : ℚ) :
    (s.last_error = some p →
      (s.update e cfg dt).2.d
          = cfg.kd * ((e * cfg.d_alpha + p * (1 - cfg.d_alpha) - p) / dt) ∧
        (s.update e cfg dt).1.last_error = some e) ∧
    (s.last_error = none →
      (s.update e cfg dt).2.d = 0 ∧ (s.update e cfg dt).1.last_error = some e) := by
  constructor
  · intro h
    constructor
    · show (PidController.update s e cfg dt).2.d = _
      unfold PidController.update
      rw [h]
    · show (PidController.update s e cfg dt).1.last_error = _
      unfold PidController.update
      rw [h]
  · intro h
    constructor
    · show (PidController.update s e cfg dt).2.d = 0
      unfold PidController.update
      rw [h]
      simp
    · show (PidController.update s e cfg dt).1.last_error = _
      unfold PidController.update
      rw [h]

/-- C6 witness: the amended statement applied to a stored error of 0,
update error 1, dt 1 with the cfg6 gains. -/
theorem C6_witness :
    ((⟨some 0, 0⟩ : PidController).update 1 cfg6 1).2.d
        = cfg6.kd * ((1 * cfg6.d_alpha + 0 * (1 - cfg6.d_alpha) - 0) / 1) ∧
      ((⟨some 0, 0⟩ : PidController).update 1 cfg6 1).1.last_error = some 1 :=
  (C6_pid_derivative ⟨some 0, 0⟩ cfg6 1 1 0).1 rfl

/-- C7 counterexample.  The claim says a ResetServo event on tick 3 yields
position 0.00 after that tick.  Running the first-order servo scenario
(dt 1/10, +1/2 contribution each tick) with a single-servo reset on tick 3,
the position after tick 3 is 1/20, not 0: the zero inserted by the reset is
overwritten when the contribution integrates from the zeroed base. -/
theorem C7_counterexample :
    (servoTick (servoTick (servoTick [] []) []) [0]).lookup 0 = some (1/20) ∧
      ((1 : ℚ)/20) ≠ 0 := by
  with_unfolding_all decide

/-- C7 amended.  Without resets the positions after five ticks are 1/20,
1/10, 3/20, 1/5, 1/4 (0.05 .. 0.25 as claimed).  With a ResetServo event on
tick 3, the reset zeroes the integration base for that tick rather than the
tick's final position, so the positions are 1/20, 1/10, 1/20, 1/10, 3/20
(0.05, 0.10, 0.05, 0.10, 0.15). -/
theorem C7_servo_first_order :
    ((servoTick [] []).lookup 0 = some (1/20) ∧
      (servoTick (servoTick [] []) []).lookup 0 = some (1/10) ∧
      (servoTick (servoTick (servoTick [] []) []) []).lookup 0 = some (3/20) ∧
      (servoTick (servoTick (servoTick (servoTick [] []) []) []) []).lookup 0
        = some (1/5) ∧
      (servoTick (servoTick (servoTick (servoTick (servoTick [] []) []) []) []) []).lookup 0
        = some (1/4)) ∧
    ((servoTick (servoTick (servoTick [] []) []) [0]).lookup 0 = some (1/20) ∧
      (servoTick (servoTick (servoTick (servoTick [] []) []) [0]) []).lookup 0
        = some (1/10) ∧
      (servoTick (servoTick (servoTick (servoTick (servoTick [] []) []) [0]) []) []).lookup 0
        = some (3/20)) := by
  with_unfolding_all decide

/-- Disarmed states are preserved by any event drain that contains no
Arm(Armed) message, and the pulse widths end at the neutral stop signal. -/
theorem processEvents_disarmed (now : ℕ) (s : PwmState) (events : List PwmEvent)
    (hs : s.armed = Armed.Disarmed)
    (h : PwmEvent.Arm Armed.Armed ∉ events) :
    (processEvents now s events).armed = Armed.Disarmed := by
  induction events generalizing s with
  | nil => exact hs
  | cons e rest ih =>
    have hne : e ≠ PwmEvent.Arm Armed.Armed := fun he => h (he ▸ List.mem_cons_self e rest)
    have hrest : PwmEvent.Arm Armed.Armed ∉ rest := fun hr => h (List.mem_cons_of_mem e hr)
    show (let s1 := processEvent now s e
      if s1.do_shutdown then s1 else processEvents now s1 rest).armed = Armed.Disarmed
    have harm : (processEvent now s e).armed = Armed.Disarmed := by
      cases e with
      | Arm a =>
        cases a with
        | Armed => exact absurd rfl hne
        | Disarmed => rfl
      | Batch signals =>
        show (if s.armed = Armed.Armed then { s with channel_pwms := signals }
          else { s with channel_pwms := STOP_PWMS }).armed = Armed.Disarmed
        rw [hs]
        simp
      | Shutdown => rfl
    by_cases hsd : (processEvent now s e).do_shutdown
    · simp only [hsd, if_true]
      exact harm
    · simp only [hsd, if_false]
      exact ih _ harm hrest

/-- C3.  PWM dead-man: if the state after draining this cycle's events is
Armed and more than max_inactive microseconds have elapsed since the last
Arm(Armed) receipt, the cycle disarms, reports the inactivity error, and
writes the neutral 1500 microsecond pulse on all 16 channels; and from any
Disarmed state, a cycle containing no Arm(Armed) event (whatever Batch
contents it carries) stays Disarmed and writes all-neutral output. -/
theorem C3_pwm_deadman (s : PwmState) (events : List PwmEvent) (now : ℕ) :
    ((processEvents now s events).armed = Armed.Armed →
      max_inactive < now - (processEvents now s events).last_arm_timestamp →
      (pwmCycle s events now).state.armed = Armed.Disarmed ∧
        (pwmCycle s events now).inactivity_error = true ∧
        (pwmCycle s events now).written = List.replicate 16 1500) ∧
    (s.armed = Armed.Disarmed → PwmEvent.Arm Armed.Armed ∉ events →
      (pwmCycle s events now).state.armed = Armed.Disarmed ∧
        (pwmCycle s events now).written = List.replicate 16 1500) := by
  constructor
  · intro harm htime
    have hcond : (processEvents now s events).armed = Armed.Armed ∧
        max_inactive < now - (processEvents now s events).last_arm_timestamp :=
      ⟨harm, htime⟩
    simp only [pwmCycle]
    rw [if_pos hcond]
    exact ⟨rfl, rfl, rfl⟩
  · intro hs hnoarm
    have h1 : (processEvents now s events).armed = Armed.Disarmed :=
      processEvents_disarmed now s events hs hnoarm
    rcases h2 : processEvents now s events with ⟨a, pwms, lat, lrt, ds⟩
    rw [h2] at h1
    have h1' : a = Armed.Disarmed := h1
    subst h1'
    simp only [pwmCycle, h2]
    exact ⟨rfl, rfl⟩

/-- C3 witness: the dead-man branch at a concrete armed state 120 ms after
the last arm, with a batch pending; and the disarmed persistence at a
concrete disarmed state receiving a batch. -/
theorem C3_witness :
    ((pwmCycle ⟨Armed.Armed, STOP_PWMS, 0, 0, false⟩
        [PwmEvent.Batch (List.replicate 16 1700)] 120000).state.armed
          = Armed.Disarmed ∧
      (pwmCycle ⟨Armed.Armed, STOP_PWMS, 0, 0, false⟩
        [PwmEvent.Batch (List.replicate 16 1700)] 120000).inactivity_error = true ∧
      (pwmCycle ⟨Armed.Armed, STOP_PWMS, 0, 0, false⟩
        [PwmEvent.Batch (List.replicate 16 1700)] 120000).written
          = List.replicate 16 1500) ∧
    ((pwmCycle ⟨Armed.Disarmed, STOP_PWMS, 0, 0, false⟩
        [PwmEvent.Batch (List.replicate 16 1800)] 50000).state.armed
          = Armed.Disarmed ∧
      (pwmCycle ⟨Armed.Disarmed, STOP_PWMS, 0, 0, false⟩
        [PwmEvent.Batch (List.replicate 16 1800)] 50000).written
          = List.replicate 16 1500) :=
  ⟨(C3_pwm_deadman ⟨Armed.Armed, STOP_PWMS, 0, 0, false⟩
      [PwmEvent.Batch (List.replicate 16 1700)] 120000).1
      (by with_unfolding_all decide) (by with_unfolding_all decide),
   (C3_pwm_deadman ⟨Armed.Disarmed, STOP_PWMS, 0, 0, false⟩
      [PwmEvent.Batch (List.replicate 16 1800)] 50000).2
      rfl (by with_unfolding_all decide)⟩

/-- C8.  Counter-clockwise raw-signal mirror: for interpolate and for both
by-force and by-current lookups, LerpDirection CounterClockwise and
DirectionOnly CounterClockwise return the same record as the Clockwise
lookup except that the raw pwm signal is remapped to 3000 - pwm, which
mirrors it around the neutral 1500 value (3000 = 2 * 1500); all other
fields are unchanged, and Lerp and OriginalData leave the raw signal of the
underlying bracket computation unmodified. -/
theorem C8_ccw_mirror (a b : MotorRecord ℚ) (value va vb : ℚ) (ex : Bool)
    (md : MotorData) (f c : ℚ) :
    (interpolate a b value va vb (.LerpDirection .CounterClockwise) ex
        = { interpolate a b value va vb (.LerpDirection .Clockwise) ex with
            pwm := 3000 - (interpolate a b value va vb (.LerpDirection .Clockwise) ex).pwm } ∧
      interpolate a b value va vb (.DirectionOnly .CounterClockwise) ex
        = { interpolate a b value va vb (.DirectionOnly .Clockwise) ex with
            pwm := 3000 - (interpolate a b value va vb (.DirectionOnly .Clockwise) ex).pwm } ∧
      (interpolate a b value va vb .Lerp ex).pwm
        = (a.lerp b ((value - va) / (vb - va)) ex).pwm ∧
      (interpolate a b value va vb .OriginalData ex).pwm
        = (if |va - value| ≤ |vb - value| then a else b).pwm ∧
      (3000 : ℚ) = 2 * 1500) ∧
    (md.lookup_by_force f (.LerpDirection .CounterClockwise) ex
        = { md.lookup_by_force f (.LerpDirection .Clockwise) ex with
            pwm := 3000 - (md.lookup_by_force f (.LerpDirection .Clockwise) ex).pwm } ∧
      md.lookup_by_current c (.LerpDirection .CounterClockwise) ex
        = { md.lookup_by_current c (.LerpDirection .Clockwise) ex with
            pwm := 3000 - (md.lookup_by_current c (.LerpDirection .Clockwise) ex).pwm } ∧
      md.lookup_by_force f (.DirectionOnly .CounterClockwise) ex
        = { md.lookup_by_force f (.DirectionOnly .Clockwise) ex with
            pwm := 3000 - (md.lookup_by_force f (.DirectionOnly .Clockwise) ex).pwm } ∧
      md.lookup_by_current c (.DirectionOnly .CounterClockwise) ex
        = { md.lookup_by_current c (.DirectionOnly .Clockwise) ex with
            pwm := 3000 - (md.lookup_by_current c (.DirectionOnly .Clockwise) ex).pwm }) :=
  ⟨⟨rfl, rfl, rfl, rfl, by norm_num⟩, ⟨rfl, rfl, rfl, rfl⟩⟩

/-- C2 counterexample.  Over the three-record table mdT3 (forces 0, 1, 4
drawing 0 A, 12 A, 24 A) with cap 26 and epsilon 1/2, a command map whose
two entries are genuine lookups of the table at forces 4 and 1/4 is
feasible (scaling by 0 draws 0 A, within the cap), yet clamp_amperage
returns commands whose total absolute current is 27, which exceeds
cap + epsilon = 53/2: the search coerces the sub-epsilon force 1/4 to zero,
never sees its 3 A, learns a reduced cap from the saturated big motor, and
returns scale 1. -/
theorem C2_counterexample :
    (clamp_amperage cmds3 cfg2 mdT3 26 (1/2) 20).map totalAbsCurrent = some 27 ∧
      (26 : ℚ) + 1/2 < 27 ∧
      cmds3 = [(0, mdT3.lookup_by_force 4 (.LerpDirection .Clockwise) false),
               (1, mdT3.lookup_by_force (1/4) (.LerpDirection .Clockwise) false)] ∧
      (cmds3.map (fun pr =>
          |(mdT3.lookup_by_force (pr.2.force * 0)
              (.LerpDirection .Clockwise) false).current|)).sum ≤ 26 := by
  with_unfolding_all decide

/-- If one search step exits through the convergence test, the returned
scale is the state's mid, the returned cap is at most the state's cap, and
the measured total at that scale is within eps of the returned cap. -/
theorem bsfrStep_converged {MotorId : Type} [DecidableEq MotorId]
    (cmds : List (MotorId × MotorRecord ℚ)) (cfg : MotorConfig MotorId)
    (md : MotorData) (eps : ℚ) (s : BsfrState) (mid cap' : ℚ)
    (h : bsfrStep cmds cfg md eps s = Sum.inl (.converged mid cap')) :
    mid = s.mid ∧ cap' ≤ s.amperage_cap ∧
      |(bsfrMeasure cmds cfg md eps s.mid).current - cap'| < eps := by
  simp only [bsfrStep] at h
  split_ifs at h <;> cases h <;>
    refine ⟨rfl, ?_, by assumption⟩ <;>
    first
      | exact min_le_left _ _
      | exact le_refl _

/-- Every step that continues the loop can only lower the amperage cap. -/
theorem bsfrStep_inr_cap {MotorId : Type} [DecidableEq MotorId]
    (cmds : List (MotorId × MotorRecord ℚ)) (cfg : MotorConfig MotorId)
    (md : MotorData) (eps : ℚ) (s s1 : BsfrState)
    (h : bsfrStep cmds cfg md eps s = Sum.inr s1) :
    s1.amperage_cap ≤ s.amperage_cap := by
  simp only [bsfrStep] at h
  split_ifs at h <;> cases h <;>
    first
      | exact le_refl _
      | exact min_le_left _ _

/-- A run that returns through the convergence test yields a scale whose
measured total is within eps of a cap that never exceeds the state's. -/
theorem bsfrRun_converged {MotorId : Type} [DecidableEq MotorId]
    (cmds : List (MotorId × MotorRecord ℚ)) (cfg : MotorConfig MotorId)
    (md : MotorData) (eps : ℚ) :
    ∀ (fuel : ℕ) (s : BsfrState) (mid cap' : ℚ),
      bsfrRun cmds cfg md eps s fuel = some (.converged mid cap') →
      cap' ≤ s.amperage_cap ∧
        |(bsfrMeasure cmds cfg md eps mid).current - cap'| < eps := by
  intro fuel
  induction fuel with
  | zero => intro s mid cap' h; cases h
  | succ n ih =>
    intro s mid cap' h
    rw [show bsfrRun cmds cfg md eps s (n + 1)
        = (match bsfrStep cmds cfg md eps s with
          | .inl e => some e
          | .inr s1 => bsfrRun cmds cfg md eps s1 n) from rfl] at h
    cases hstep : bsfrStep cmds cfg md eps s with
    | inl e =>
      rw [hstep] at h
      have he : e = BsfrExit.converged mid cap' := by
        cases h; rfl
      subst he
      obtain ⟨hmid, hcap, hbound⟩ :=
        bsfrStep_converged cmds cfg md eps s mid cap' hstep
      subst hmid
      exact ⟨hcap, hbound⟩
    | inr s1 =>
      rw [hstep] at h
      obtain ⟨hcap, hbound⟩ := ih s1 mid cap' h
      exact ⟨le_trans hcap (bsfrStep_inr_cap cmds cfg md eps s s1 hstep), hbound⟩

/-- C2 amended.  Whenever binary_search_force_ratio exits through its
convergence test, the total of coerced absolute currents that the search
recomputes at the returned scale is below I_cap + epsilon (the effective
cap it converged to never exceeds the input cap).  The returned scale need
not lie within [0, 1], and the output total of clamp_amperage, which
includes motors whose sub-epsilon forces the search coerces away, can
exceed I_cap + epsilon. -/
theorem C2_clamp_feasibility {MotorId : Type} [DecidableEq MotorId]
    (cmds : List (MotorId × MotorRecord ℚ)) (cfg : MotorConfig MotorId)
    (md : MotorData) (cap eps : ℚ) (fuel : ℕ) (mid cap' : ℚ)
    (h : bsfrRun cmds cfg md eps (bsfrInit cap) fuel = some (.converged mid cap')) :
    forceRatioSearch cmds cfg md cap eps fuel = some mid ∧
      (bsfrMeasure cmds cfg md eps mid).current < cap + eps := by
  obtain ⟨hcap, hbound⟩ := bsfrRun_converged cmds cfg md eps fuel _ mid cap' h
  constructor
  · unfold forceRatioSearch
    rw [h]
    rfl
  · have h1 : (bsfrMeasure cmds cfg md eps mid).current - cap' < eps :=
      lt_of_le_of_lt (le_abs_self _) hbound
    have h2 : (bsfrMeasure cmds cfg md eps mid).current < cap' + eps := by
      linarith
    calc (bsfrMeasure cmds cfg md eps mid).current < cap' + eps := h2
      _ ≤ cap + eps := by
        have : cap' ≤ cap := hcap
        linarith

/-- C2 witness: a converged concrete run: one motor drawing 20 A at force
2, cap 15, epsilon 1/10; the search converges to scale 3/4 and the
recomputed total at 3/4 is below 15 + 1/10. -/
theorem C2_witness :
    forceRatioSearch cmdsW cfg2 mdT2 15 (1/10) 15 = some (3/4) ∧
      (bsfrMeasure cmdsW cfg2 mdT2 (1/10) (3/4)).current < 15 + 1/10 :=
  C2_clamp_feasibility cmdsW cfg2 mdT2 15 (1/10) 15 (3/4) 15
    (by with_unfolding_all decide)

/-- Looking every id of a duplicate-free id list up in the zip of that list
with a value list recovers the value list. -/
theorem map_lookup_zip {MotorId : Type} [DecidableEq MotorId]
    (ids : List MotorId) (vals : List ℚ) (hn : ids.Nodup)
    (hl : ids.length = vals.length) :
    ids.map (fun id => ((ids.zip vals).lookup id).getD 0) = vals := by
  induction ids generalizing vals with
  | nil =>
    cases vals with
    | nil => rfl
    | cons v vs => cases hl
  | cons i ids ih =>
    cases vals with
    | nil => cases hl
    | cons v vs =>
      have hni : i ∉ ids := (List.nodup_cons.mp hn).1
      have hn' : ids.Nodup := (List.nodup_cons.mp hn).2
      have hl' : ids.length = vs.length := by
        simpa using hl
      show (((((i, v) :: ids.zip vs)).lookup i).getD 0)
          :: ids.map (fun id => ((((i, v) :: ids.zip vs)).lookup id).getD 0) = v :: vs
      have hhead : (((i, v) :: ids.zip vs).lookup i) = some v := by
        simp [List.lookup]
      have htail : ids.map (fun id => ((((i, v) :: ids.zip vs)).lookup id).getD 0)
          = ids.map (fun id => (((ids.zip vs)).lookup id).getD 0) := by
        apply List.map_congr_left
        intro a ha
        have hne : (a == i) = false := by
          simp only [beq_eq_false_iff_ne]
          intro hai
          exact hni (hai ▸ ha)
        simp [List.lookup, hne]
      rw [hhead, htail, ih vs hn' hl']
      rfl

/-- The composition of the source reverse solve with the spec-modelled
forward solve equals the matrix product M * (Mplus * w), provided the motor
ids are duplicate-free and the pseudo-inverse has one row per motor. -/
theorem forward_reverse {MotorId : Type} [DecidableEq MotorId]
    (cfg : MotorConfig MotorId) (w : Movement)
    (hids : (cfg.motors.map Prod.fst).Nodup)
    (hlenP : cfg.pseudoInverse.length = cfg.motors.length) :
    forward_solve cfg (reverse_solve w cfg)
      = applyColumns cfg.matrix (applyRows cfg.pseudoInverse w) := by
  unfold forward_solve reverse_solve
  have h2 : cfg.motors.map (fun p =>
        ((((cfg.motors.map Prod.fst).zip (applyRows cfg.pseudoInverse w)).lookup p.1)).getD 0)
      = (cfg.motors.map Prod.fst).map (fun id =>
        ((((cfg.motors.map Prod.fst).zip (applyRows cfg.pseudoInverse w)).lookup id)).getD 0) := by
    rw [List.map_map]
    rfl
  rw [h2, map_lookup_zip _ _ hids
    (by simp only [List.length_map, applyRows]; exact hlenP.symm)]

/-- The squared norm of the difference of a vector with itself is zero. -/
theorem normSq_sub_self (v : V3) : V3.normSq (v.sub v) = 0 := by
  unfold V3.sub V3.normSq
  ring

/-- C1.  Allocation round-trip: when the stored pseudo-inverse satisfies
the Moore-Penrose identity M * Mplus * M = M (the source computes it by
SVD; the identity is stated over the list representation), every wrench w
in the column span of M (w = M * f) satisfies
forward_solve (reverse_solve w) = w exactly, so the force and torque errors
have squared norm 0 < 1/10000. -/
theorem C1_roundtrip {MotorId : Type} [DecidableEq MotorId]
    (cfg : MotorConfig MotorId) (f : List ℚ) (w : Movement)
    (hids : (cfg.motors.map Prod.fst).Nodup)
    (hlenP : cfg.pseudoInverse.length = cfg.motors.length)
    (hMPM : ∀ g : List ℚ, g.length = cfg.motors.length →
      applyColumns cfg.matrix (applyRows cfg.pseudoInverse (applyColumns cfg.matrix g))
        = applyColumns cfg.matrix g)
    (hf : f.length = cfg.motors.length)
    (hw : w = applyColumns cfg.matrix f) :
    V3.normSq ((forward_solve cfg (reverse_solve w cfg)).force.sub w.force) < 1/10000 ∧
      V3.normSq ((forward_solve cfg (reverse_solve w cfg)).torque.sub w.torque) < 1/10000 := by
  have hexact : forward_solve cfg (reverse_solve w cfg) = w := by
    rw [forward_reverse cfg w hids hlenP, hw, hMPM f hf]
  rw [hexact, normSq_sub_self, normSq_sub_self]
  norm_num

/-- C1 witness: the round-trip error is below 1/10000 at the concrete
one-thruster configuration and the wrench (2, 0, 0, 0, 0, 0). -/
theorem C1_witness :
    V3.normSq ((forward_solve cfg1 (reverse_solve wEx cfg1)).force.sub wEx.force)
        < 1/10000 ∧
      V3.normSq ((forward_solve cfg1 (reverse_solve wEx cfg1)).torque.sub wEx.torque)
        < 1/10000 :=
  C1_roundtrip cfg1 [2] wEx (by with_unfolding_all decide) rfl
    (by
      intro g hg
      obtain ⟨x, rfl⟩ := List.length_eq_one.mp hg
      show applyColumns [col1] (applyRows [col1] (applyColumns [col1] [x]))
        = applyColumns [col1] [x]
      simp only [applyColumns, applyRows, rowDot, Movement.smul, Movement.add,
        Movement.zero, V3.smul, V3.add, V3.dot, V3.zero, col1, List.zipWith,
        List.foldl, List.map]
      norm_num)
    rfl (by with_unfolding_all decide)

/-! Lemmas about partition points over sorted key lists, supporting claims
C9 and C10. -/

/-- partitionPoint over a mapped list. -/
theorem partitionPoint_map (p : β → Bool) (f : α → β) (l : List α) :
    partitionPoint p (l.map f) = partitionPoint (fun x => p (f x)) l := by
  induction l with
  | nil => rfl
  | cons x xs ih => simp only [List.map, partitionPoint, ih]

/-- The partition point never exceeds the list length. -/
theorem partitionPoint_le_length (p : α → Bool) (l : List α) :
    partitionPoint p l ≤ l.length := by
  induction l with
  | nil => exact le_refl 0
  | cons x xs ih =>
    simp only [partitionPoint]
    split_ifs
    · exact Nat.succ_le_succ ih
    · exact Nat.zero_le _

/-- Every index below the partition point holds a key below the value. -/
theorem partitionPoint_lt_val (ks : List ℚ) (val : ℚ) :
    ∀ i, i < partitionPoint (fun x => decide (x < val)) ks → ks.getD i 0 < val := by
  induction ks with
  | nil => intro i h; exact absurd h (Nat.not_lt_zero i)
  | cons x xs ih =>
    intro i h
    simp only [partitionPoint] at h
    split_ifs at h with hx
    · cases i with
      | zero => exact of_decide_eq_true hx
      | succ j => exact ih j (Nat.lt_of_succ_lt_succ h)
    · exact absurd h (Nat.not_lt_zero i)

/-- When the partition point is in range, the value is at most the key
there. -/
theorem partitionPoint_ge_val (ks : List ℚ) (val : ℚ)
    (h : partitionPoint (fun x => decide (x < val)) ks < ks.length) :
    val ≤ ks.getD (partitionPoint (fun x => decide (x < val)) ks) 0 := by
  induction ks with
  | nil => exact absurd h (Nat.not_lt_zero _)
  | cons x xs ih =>
    by_cases hx : x < val
    · have hpp : partitionPoint (fun x => decide (x < val)) (x :: xs)
          = partitionPoint (fun x => decide (x < val)) xs + 1 := by
        simp [partitionPoint, hx]
      rw [hpp] at h ⊢
      exact ih (Nat.lt_of_succ_lt_succ h)
    · have hpp : partitionPoint (fun x => decide (x < val)) (x :: xs) = 0 := by
        simp [partitionPoint, hx]
      rw [hpp]
      exact le_of_not_lt hx

/-- On a sorted list, every in-range index whose key is below the value
sits below the partition point. -/
theorem partitionPoint_mem_lt (ks : List ℚ) (val : ℚ) (hs : ks.Sorted (· < ·)) :
    ∀ i, i < ks.length → ks.getD i 0 < val →
      i < partitionPoint (fun x => decide (x < val)) ks := by
  induction ks with
  | nil => intro i hi; exact absurd hi (Nat.not_lt_zero i)
  | cons x xs ih =>
    obtain ⟨hall, hs1⟩ := List.sorted_cons.mp hs
    intro i hi hkey
    by_cases hx : x < val
    · have hpp : partitionPoint (fun x => decide (x < val)) (x :: xs)
          = partitionPoint (fun x => decide (x < val)) xs + 1 := by
        simp [partitionPoint, hx]
      rw [hpp]
      cases i with
      | zero => exact Nat.succ_pos _
      | succ j => exact Nat.succ_lt_succ (ih hs1 j (Nat.lt_of_succ_lt_succ hi) hkey)
    · cases i with
      | zero => exact absurd hkey hx
      | succ j =>
        have hmem : xs.getD j 0 ∈ xs := by
          have hj : j < xs.length := Nat.lt_of_succ_lt_succ hi
          rw [List.getD_eq_get xs 0 hj]
          exact List.get_mem xs j hj
        exact absurd (lt_trans (hall _ hmem) hkey) hx

/-- The partition point is monotone in the value. -/
theorem partitionPoint_mono (ks : List ℚ) (v1 v2 : ℚ) (h : v1 ≤ v2) :
    partitionPoint (fun x => decide (x < v1)) ks
      ≤ partitionPoint (fun x => decide (x < v2)) ks := by
  induction ks with
  | nil => exact le_refl 0
  | cons x xs ih =>
    by_cases h1 : x < v1
    · have h2 : x < v2 := lt_of_lt_of_le h1 h
      simp only [partitionPoint, decide_eq_true h1, decide_eq_true h2, if_true]
      exact Nat.succ_le_succ ih
    · simp only [partitionPoint, decide_eq_false h1, if_false]
      exact Nat.zero_le _

/-- pairwiseDiffs has one entry per consecutive pair. -/
theorem pairwiseDiffs_length (l : List ℚ) :
    (pairwiseDiffs l).length = l.length - 1 := by
  induction l with
  | nil => rfl
  | cons a t ih =>
    cases t with
    | nil => rfl
    | cons b rest =>
      simp only [pairwiseDiffs, List.length_cons] at ih ⊢
      omega

/-- Each entry of pairwiseDiffs is the difference of consecutive keys. -/
theorem pairwiseDiffs_getD (l : List ℚ) :
    ∀ i, i + 1 < l.length →
      (pairwiseDiffs l).getD i 0 = l.getD (i + 1) 0 - l.getD i 0 := by
  induction l with
  | nil => intro i h; simp at h
  | cons a t ih =>
    cases t with
    | nil => intro i h; simp at h
    | cons b rest =>
      intro i h
      cases i with
      | zero => rfl
      | succ j => exact ih j (by simpa using h)

/-- On a sorted list all pairwise differences are positive. -/
theorem pairwiseDiffs_pos (l : List ℚ) (hs : l.Sorted (· < ·)) :
    ∀ x ∈ pairwiseDiffs l, 0 < x := by
  induction l with
  | nil => intro x hx; exact absurd hx (List.not_mem_nil x)
  | cons a t ih =>
    cases t with
    | nil => intro x hx; exact absurd hx (List.not_mem_nil x)
    | cons b rest =>
      obtain ⟨hall, hs1⟩ := List.sorted_cons.mp hs
      intro x hx
      rcases List.mem_cons.mp hx with rfl | hx1
      · have : a < b := hall b (List.mem_cons_self b rest)
        linarith
      · exact ih hs1 x hx1

/-- A left fold of min lands on a member of the seeded list. -/
theorem foldl_min_mem (d : ℚ) (ds : List ℚ) : ds.foldl min d ∈ d :: ds := by
  induction ds generalizing d with
  | nil => exact List.mem_singleton.mpr rfl
  | cons e es ih =>
    have h := ih (min d e)
    rcases List.mem_cons.mp h with hh | hh
    · rcases min_choice d e with hm | hm
      · exact List.mem_cons.mpr (Or.inl (by rw [show (e :: es).foldl min d
          = es.foldl min (min d e) from rfl, hh, hm]))
      · exact List.mem_cons.mpr (Or.inr (List.mem_cons.mpr (Or.inl (by
          rw [show (e :: es).foldl min d = es.foldl min (min d e) from rfl, hh, hm]))))
    · exact List.mem_cons.mpr (Or.inr (List.mem_cons.mpr (Or.inr (by
        rw [show (e :: es).foldl min d = es.foldl min (min d e) from rfl]
        exact hh))))

/-- A left fold of min bounds every member of the seeded list. -/
theorem foldl_min_le (d : ℚ) (ds : List ℚ) : ∀ x ∈ d :: ds, ds.foldl min d ≤ x := by
  induction ds generalizing d with
  | nil =>
    intro x hx
    rcases List.mem_cons.mp hx with rfl | hx1
    · exact le_refl x
    · exact absurd hx1 (List.not_mem_nil x)
  | cons e es ih =>
    intro x hx
    have hmin : es.foldl min (min d e) ≤ min d e :=
      ih (min d e) (min d e) (List.mem_cons_self _ _)
    rcases List.mem_cons.mp hx with rfl | hx1
    · exact le_trans hmin (min_le_left _ _)
    · rcases List.mem_cons.mp hx1 with rfl | hx2
      · exact le_trans hmin (min_le_right _ _)
      · exact ih (min d e) x (List.mem_cons.mpr (Or.inr hx2))

/-- Strictly sorted key lists have strictly increasing indexed keys. -/
theorem sorted_getD_lt (ks : List ℚ) (hs : ks.Sorted (· < ·)) (i j : ℕ)
    (hij : i < j) (hj : j < ks.length) : ks.getD i 0 < ks.getD j 0 := by
  have hi : i < ks.length := lt_trans hij hj
  rw [List.getD_eq_get ks 0 hi, List.getD_eq_get ks 0 hj]
  exact List.pairwise_iff_get.mp hs ⟨i, hi⟩ ⟨j, hj⟩ hij

/-- Indexing a mapped list. -/
theorem getD_map_key (data : List (MotorRecord ℚ)) (kc : KeyChoice) (i : ℕ)
    (hi : i < data.length) :
    (data.map kc.eval).getD i 0 = kc.eval (data.getD i default) := by
  have hi2 : i < (data.map kc.eval).length := by
    rw [List.length_map]; exact hi
  rw [List.getD_eq_get _ 0 hi2, List.getD_eq_get data default hi]
  simp [List.get_map]

/-- Distinct in-range indices of a strictly-sorted-key record list hold
distinct records. -/
theorem getD_record_ne (data : List (MotorRecord ℚ)) (kc : KeyChoice)
    (hs : (data.map kc.eval).Sorted (· < ·)) (i j : ℕ) (hij : i < j)
    (hj : j < data.length) :
    data.getD i default ≠ data.getD j default := by
  intro heq
  have hlt : (data.map kc.eval).getD i 0 < (data.map kc.eval).getD j 0 :=
    sorted_getD_lt _ hs i j hij (by rw [List.length_map]; exact hj)
  rw [getD_map_key data kc i (lt_trans hij hj), getD_map_key data kc j hj, heq] at hlt
  exact lt_irrefl _ hlt

/-- Success inversion of collectCells: the output has one cell per input
index and each cell is the build result at its index. -/
theorem collectCells_spec {γ : Type} (f : ℕ → Option γ) (l : List ℕ)
    (out : List γ) (h : collectCells f l = some out) :
    out.length = l.length ∧
      ∀ (i : ℕ) (c0 : γ), i < l.length → f (l.getD i 0) = some (out.getD i c0) := by
  induction l generalizing out with
  | nil =>
    cases h
    exact ⟨rfl, fun i c0 hi => absurd hi (Nat.not_lt_zero i)⟩
  | cons j js ih =>
    simp only [collectCells] at h
    cases hfj : f j with
    | none => rw [hfj] at h; cases h
    | some c =>
      rw [hfj] at h
      cases hrec : collectCells f js with
      | none => rw [hrec] at h; cases h
      | some cs =>
        rw [hrec] at h
        cases h
        obtain ⟨hlen, hidx⟩ := ih cs hrec
        refine ⟨by simp [hlen], ?_⟩
        intro i c0 hi
        cases i with
        | zero => exact hfj
        | succ k => exact hidx k c0 (by simpa using hi)

/-- collectCells succeeds when every cell build succeeds. -/
theorem collectCells_isSome {γ : Type} (f : ℕ → Option γ) (l : List ℕ)
    (h : ∀ j ∈ l, ∃ c, f j = some c) :
    ∃ out, collectCells f l = some out := by
  induction l with
  | nil => exact ⟨[], rfl⟩
  | cons j js ih =>
    obtain ⟨c, hc⟩ := h j (List.mem_cons_self j js)
    obtain ⟨cs, hcs⟩ := ih fun x hx => h x (List.mem_cons_of_mem j hx)
    exact ⟨c :: cs, by simp only [collectCells, hc, hcs]⟩

/-- Success inversion of RecordIndex::new: the stored fields are the
computed minimum, maximum and step count, and the lookup table is the
collected cell list. -/
theorem recordIndexNew_inversion (data : List (MotorRecord ℚ)) (kc : KeyChoice)
    (idx : RecordIndex) (h : RecordIndex.new data kc = some idx) :
    2 ≤ data.length ∧ idx.data = data ∧ idx.key = kc ∧
      ∃ d ds, pairwiseDiffs (data.map kc.eval) = d :: ds ∧
        idx.float_compression.min = kc.eval (data.headD default) ∧
        idx.float_compression.max = kc.eval (data.getLastD default) ∧
        idx.float_compression.steps
          = (((Int.ceil ((kc.eval (data.getLastD default)
              - kc.eval (data.headD default)) / (ds.foldl min d))).toNat + 1 : ℕ) : ℤ) ∧
        collectCells (cellAt data kc idx.float_compression)
            (List.range ((Int.ceil ((kc.eval (data.getLastD default)
              - kc.eval (data.headD default)) / (ds.foldl min d))).toNat + 1))
          = some idx.lookup_table := by
  simp only [RecordIndex.new] at h
  by_cases hlen : data.length < 2
  · rw [if_pos hlen] at h; cases h
  · rw [if_neg hlen] at h
    refine ⟨Nat.le_of_not_lt hlen, ?_⟩
    cases hpd : pairwiseDiffs (data.map kc.eval) with
    | nil => rw [hpd] at h; cases h
    | cons d ds =>
      rw [hpd] at h
      have h2 : Option.map (fun tbl => (⟨data, tbl,
          ⟨kc.eval (data.headD default), kc.eval (data.getLastD default),
            (((Int.ceil ((kc.eval (data.getLastD default)
              - kc.eval (data.headD default)) / (ds.foldl min d))).toNat + 1 : ℕ) : ℤ)⟩,
          kc⟩ : RecordIndex))
          (collectCells (cellAt data kc
            ⟨kc.eval (data.headD default), kc.eval (data.getLastD default),
              (((Int.ceil ((kc.eval (data.getLastD default)
                - kc.eval (data.headD default)) / (ds.foldl min d))).toNat + 1 : ℕ) : ℤ)⟩)
            (List.range ((Int.ceil ((kc.eval (data.getLastD default)
              - kc.eval (data.headD default)) / (ds.foldl min d))).toNat + 1)))
          = some idx := h
      rw [Option.map_eq_some'] at h2
      obtain ⟨tbl, hcc, hidx⟩ := h2
      cases hidx
      exact ⟨rfl, rfl, d, ds, rfl, rfl, rfl, rfl, hcc⟩

/-- The head of a nonempty list as an indexed access. -/
theorem headD_eq_getD (l : List (MotorRecord ℚ)) (hl : 0 < l.length) :
    l.headD default = l.getD 0 default := by
  cases l with
  | nil => cases hl
  | cons a t => rfl

/-- The last element of a nonempty list as an indexed access. -/
theorem getLastD_eq_getD (l : List (MotorRecord ℚ)) (hl : 0 < l.length) :
    l.getLastD default = l.getD (l.length - 1) default := by
  cases l with
  | nil => cases hl
  | cons a t =>
    rw [List.getLastD_eq_getLast?, List.getLast?_eq_get? (a :: t)]
    rfl

/-- decompress produces the uniform cell boundaries j*w + min where w is
the cell width (max - min) / (steps - 1). -/
theorem decompress_eq (fc : FloatCompression) (w : ℚ) (hst : 2 ≤ fc.steps)
    (hw : (((fc.steps : ℤ) : ℚ) - 1) * w = fc.max - fc.min) (j : ℤ) :
    fc.decompress j = ((j : ℚ) * w + fc.min, ((j : ℚ) + 1) * w + fc.min) := by
  have hs1 : (1 : ℚ) ≤ ((fc.steps : ℤ) : ℚ) - 1 := by
    have : (2 : ℚ) ≤ ((fc.steps : ℤ) : ℚ) := by exact_mod_cast hst
    linarith
  have hne : ((fc.steps : ℤ) : ℚ) - 1 ≠ 0 := by linarith
  unfold FloatCompression.decompress
  have hcast : (((fc.steps - 1 : ℤ)) : ℚ) = ((fc.steps : ℤ) : ℚ) - 1 := by push_cast; ring
  rw [hcast, ← hw]
  have h1 : ∀ a : ℚ, a / (((fc.steps : ℤ) : ℚ) - 1) * ((((fc.steps : ℤ) : ℚ) - 1) * w)
      = a * w := by
    intro a
    field_simp
    ring
  rw [Prod.mk.injEq]
  constructor
  · rw [h1]; ring_nf
  · rw [h1]

/-- With cell width at most the minimum key gap, each half-open cell holds
at most one key: the partition point advances by at most one across it. -/
theorem ppk_bracket (ks : List ℚ) (w lo : ℚ)
    (hgap : ∀ i, i + 1 < ks.length → ks.getD i 0 + w ≤ ks.getD (i + 1) 0) :
    partitionPoint (fun x => decide (x < lo + w)) ks
      ≤ partitionPoint (fun x => decide (x < lo)) ks + 1 := by
  by_contra hc
  push_neg at hc
  have h2 : partitionPoint (fun x => decide (x < lo)) ks + 2
      ≤ partitionPoint (fun x => decide (x < lo + w)) ks := hc
  have hlen : partitionPoint (fun x => decide (x < lo + w)) ks ≤ ks.length :=
    partitionPoint_le_length _ _
  set p1 := partitionPoint (fun x => decide (x < lo)) ks with hp1
  have hi1 : p1 + 1 < ks.length := by omega
  have hlo : lo ≤ ks.getD p1 0 := partitionPoint_ge_val ks lo (by omega)
  have hhi : ks.getD (p1 + 1) 0 < lo + w :=
    partitionPoint_lt_val ks (lo + w) (p1 + 1) (by omega)
  have hg := hgap p1 hi1
  linarith

/-- The content of a built lookup cell (motor_preformance.rs lines
330-342): either the cell straddles one sample and stores it as the middle
record, or it stores only the two bracketing records. -/
theorem cellAt_eq (data : List (MotorRecord ℚ)) (kc : KeyChoice)
    (fc : FloatCompression) (w : ℚ)
    (hs : (data.map kc.eval).Sorted (· < ·))
    (hm : 2 ≤ data.length)
    (hst : 2 ≤ fc.steps)
    (hw : (((fc.steps : ℤ) : ℚ) - 1) * w = fc.max - fc.min)
    (hwpos : 0 < w)
    (hgap : ∀ i, i + 1 < data.length →
      (data.map kc.eval).getD i 0 + w ≤ (data.map kc.eval).getD (i + 1) 0)
    (j : ℕ) :
    cellAt data kc fc j
        = some (data.getD (min (max (partitionPoint
              (fun x => decide (x < (j : ℚ) * w + fc.min)) (data.map kc.eval)) 1)
              (data.length - 1) - 1) default,
            (if min (max (partitionPoint
                (fun x => decide (x < ((j : ℚ) + 1) * w + fc.min)) (data.map kc.eval)) 1)
                (data.length - 1)
              = min (max (partitionPoint
                (fun x => decide (x < (j : ℚ) * w + fc.min)) (data.map kc.eval)) 1)
                (data.length - 1) + 1
            then some (data.getD (min (max (partitionPoint
                (fun x => decide (x < (j : ℚ) * w + fc.min)) (data.map kc.eval)) 1)
                (data.length - 1)) default)
            else none),
            data.getD (min (max (partitionPoint
              (fun x => decide (x < ((j : ℚ) + 1) * w + fc.min)) (data.map kc.eval)) 1)
              (data.length - 1)) default) ∧
      (min (max (partitionPoint
          (fun x => decide (x < ((j : ℚ) + 1) * w + fc.min)) (data.map kc.eval)) 1)
          (data.length - 1)
        = min (max (partitionPoint
          (fun x => decide (x < (j : ℚ) * w + fc.min)) (data.map kc.eval)) 1)
          (data.length - 1) ∨
       min (max (partitionPoint
          (fun x => decide (x < ((j : ℚ) + 1) * w + fc.min)) (data.map kc.eval)) 1)
          (data.length - 1)
        = min (max (partitionPoint
          (fun x => decide (x < (j : ℚ) * w + fc.min)) (data.map kc.eval)) 1)
          (data.length - 1) + 1) := by
  set ks := data.map kc.eval with hks
  set lo := (j : ℚ) * w + fc.min with hlo
  set hi := ((j : ℚ) + 1) * w + fc.min with hhi
  have hih : hi = lo + w := by rw [hlo, hhi]; ring
  set p1 := partitionPoint (fun x => decide (x < lo)) ks with hp1
  set p2 := partitionPoint (fun x => decide (x < hi)) ks with hp2
  have hm1 : 1 ≤ data.length - 1 := by omega
  have hlen_ks : ks.length = data.length := by rw [hks, List.length_map]
  have hp12 : p1 ≤ p2 := by
    rw [hp1, hp2, hih]
    exact partitionPoint_mono ks lo (lo + w) (by linarith)
  have hp21 : p2 ≤ p1 + 1 := by
    rw [hp1, hp2, hih]
    exact ppk_bracket ks w lo (by rw [hlen_ks] at *; exact fun i hi2 => hgap i hi2)
  set b1 := min (max p1 1) (data.length - 1) with hb1
  set b2 := min (max p2 1) (data.length - 1) with hb2
  have hbcases : b2 = b1 ∨ b2 = b1 + 1 := by omega
  have hb1lo : 1 ≤ b1 := by omega
  have hb1hi : b1 ≤ data.length - 1 := by omega
  have hb2lo : 1 ≤ b2 := by omega
  have hb2hi : b2 ≤ data.length - 1 := by omega
  -- the two binary searches inside the cell build
  have hdec := decompress_eq fc w hst hw (j : ℤ)
  have hppm : ∀ v : ℚ, partitionPoint (fun x => decide (kc.eval x < v)) data
      = partitionPoint (fun x => decide (x < v)) ks := by
    intro v
    rw [hks, partitionPoint_map]
  have hlm : bsearchNearest lo data kc
      = (data.getD (b1 - 1) default, data.getD b1 default) := by
    unfold bsearchNearest
    rw [hppm lo]
  have hmh : bsearchNearest hi data kc
      = (data.getD (b2 - 1) default, data.getD b2 default) := by
    unfold bsearchNearest
    rw [hppm hi]
  have hcast2 : ((j : ℤ) : ℚ) = (j : ℚ) := by push_cast; rfl
  have hdec2 : fc.decompress (j : ℤ) = (lo, hi) := by
    rw [hdec, hcast2, hlo, hhi]
  unfold cellAt
  rw [hdec2]
  simp only [hlm, hmh]
  rcases hbcases with hbe | hbe
  · -- no straddled sample: the two middle records differ
    have hne : data.getD b1 default ≠ data.getD (b2 - 1) default := by
      rw [hbe]
      intro heq
      exact getD_record_ne data kc hs (b1 - 1) b1 (by omega) (by omega) heq.symm
    have hgt : kc.eval (data.getD (b2 - 1) default) < kc.eval (data.getD b1 default) := by
      rw [hbe]
      rw [← getD_map_key data kc (b1 - 1) (by omega), ← getD_map_key data kc b1 (by omega)]
      exact sorted_getD_lt ks hs (b1 - 1) b1 (by omega) (by omega)
    rw [if_neg hne, if_pos hgt, if_neg (by omega : ¬ b2 = b1 + 1)]
    exact ⟨rfl, Or.inl hbe⟩
  · -- one straddled sample: the middle records agree
    have heq : data.getD b1 default = data.getD (b2 - 1) default := by
      rw [hbe, Nat.add_sub_cancel]
    rw [if_pos heq, if_pos hbe]
    exact ⟨rfl, Or.inr hbe⟩

/-- Core equivalence: under the invariants established by RecordIndex::new
(strictly sorted keys, at least two records, uniform cells no wider than
the smallest key gap), the O(1) indexed lookup selects the same bracketing
pair as the binary search, for every value inside the covered range. -/
theorem lookupNearest_eq_core (data : List (MotorRecord ℚ)) (kc : KeyChoice)
    (fc : FloatCompression) (w : ℚ) (tbl : List IndexCell) (stepsN : ℕ)
    (hs : (data.map kc.eval).Sorted (· < ·))
    (hm : 2 ≤ data.length)
    (hstN : fc.steps = (stepsN : ℤ)) (hst2 : 2 ≤ stepsN)
    (hw : (((fc.steps : ℤ) : ℚ) - 1) * w = fc.max - fc.min)
    (hwpos : 0 < w)
    (hgap : ∀ i, i + 1 < data.length →
      (data.map kc.eval).getD i 0 + w ≤ (data.map kc.eval).getD (i + 1) 0)
    (htbl : collectCells (cellAt data kc fc) (List.range stepsN) = some tbl)
    (val : ℚ) (hvlo : fc.min ≤ val) (hvhi : val ≤ fc.max) :
    RecordIndex.lookup_nearest ⟨data, tbl, fc, kc⟩ val = bsearchNearest val data kc := by
  obtain ⟨hlen_tbl, hcells⟩ := collectCells_spec _ _ _ htbl
  rw [List.length_range] at hlen_tbl
  set ks := data.map kc.eval with hks
  have hlen_ks : ks.length = data.length := by rw [hks, List.length_map]
  set t := (val - fc.min) / w with ht
  have hwne : w ≠ 0 := ne_of_gt hwpos
  have hsne : ((stepsN : ℚ) - 1) ≠ 0 := by
    have : (2 : ℚ) ≤ (stepsN : ℚ) := by exact_mod_cast hst2
    intro hc
    linarith
  have hwcast : ((stepsN : ℚ) - 1) * w = fc.max - fc.min := by
    rw [← hw, hstN]
    push_cast
    ring
  have ht0 : 0 ≤ t := by
    rw [ht]
    apply div_nonneg (by linarith) (le_of_lt hwpos)
  have htle : t ≤ (stepsN : ℚ) - 1 := by
    rw [ht, div_le_iff hwpos]
    linarith [hwcast]
  have hcomp : fc.compress val = ⌊t⌋ := by
    unfold FloatCompression.compress
    congr 1
    rw [← hwcast, ht]
    have hcast3 : (((fc.steps - 1 : ℤ)) : ℚ) = (stepsN : ℚ) - 1 := by
      rw [hstN]; push_cast; ring
    rw [hcast3]
    field_simp
    ring
  set j0 := (⌊t⌋).toNat with hj0
  have hfl0 : 0 ≤ ⌊t⌋ := Int.floor_nonneg.mpr ht0
  have hj0cast : ((j0 : ℤ)) = ⌊t⌋ := Int.toNat_of_nonneg hfl0
  have hfl_le : ⌊t⌋ ≤ (stepsN : ℤ) - 1 := by
    have h1 : ((⌊t⌋ : ℤ) : ℚ) ≤ t := Int.floor_le t
    have h2 : ((⌊t⌋ : ℤ) : ℚ) ≤ (stepsN : ℚ) - 1 := le_trans h1 htle
    exact_mod_cast h2
  have hj0le : j0 ≤ stepsN - 1 := by omega
  have hj0lt : j0 < stepsN := by omega
  have hjt1 : ((j0 : ℚ)) ≤ t := by
    have := Int.floor_le t
    rw [← hj0cast] at this
    exact_mod_cast this
  have hjt2 : t < (j0 : ℚ) + 1 := by
    have := Int.lt_floor_add_one t
    rw [← hj0cast] at this
    exact_mod_cast this
  have hclo : (j0 : ℚ) * w + fc.min ≤ val := by
    have : (j0 : ℚ) * w ≤ t * w := by
      apply mul_le_mul_of_nonneg_right hjt1 (le_of_lt hwpos)
    rw [ht, div_mul_cancel₀ _ hwne] at this
    linarith
  have hchi : val < ((j0 : ℚ) + 1) * w + fc.min := by
    have : t * w < ((j0 : ℚ) + 1) * w := by
      apply mul_lt_mul_of_pos_right hjt2 hwpos
    rw [ht, div_mul_cancel₀ _ hwne] at this
    linarith
  -- the looked-up cell is the one built for index j0
  have hcell0 := hcells j0 (default, none, default) (by rw [List.length_range]; exact hj0lt)
  have hrange : (List.range stepsN).getD j0 0 = j0 := by
    rw [List.getD_eq_get _ 0 (by rw [List.length_range]; exact hj0lt)]
    simp
  rw [hrange] at hcell0
  obtain ⟨hcell_eq, hbcases⟩ := cellAt_eq data kc fc w hs hm
    (by rw [hstN]; exact_mod_cast hst2) hw hwpos hgap j0
  rw [hcell0] at hcell_eq
  have hcell := Option.some.inj hcell_eq
  -- abbreviations for the partition points and clamped indices
  set p1 := partitionPoint (fun x => decide (x < (j0 : ℚ) * w + fc.min)) ks with hp1
  set p2 := partitionPoint (fun x => decide (x < ((j0 : ℚ) + 1) * w + fc.min)) ks with hp2
  set p := partitionPoint (fun x => decide (x < val)) ks with hp
  set b1 := min (max p1 1) (data.length - 1) with hb1
  set b2 := min (max p2 1) (data.length - 1) with hb2
  have hp1p : p1 ≤ p := partitionPoint_mono ks _ val hclo
  have hpp2 : p ≤ p2 := partitionPoint_mono ks val _ (le_of_lt hchi)
  have hp_le : p ≤ ks.length := partitionPoint_le_length _ _
  -- unfold the lookup
  have hidx : min (⌊t⌋).toNat (tbl.length - 1) = j0 := by
    rw [hlen_tbl, ← hj0]
    omega
  have hppval : partitionPoint (fun x => decide (kc.eval x < val)) data = p := by
    rw [hp, hks, partitionPoint_map]
  have hbsearch : bsearchNearest val data kc
      = (data.getD (min (max p 1) (data.length - 1) - 1) default,
         data.getD (min (max p 1) (data.length - 1)) default) := by
    unfold bsearchNearest
    rw [hppval]
  have hbr : p2 ≤ p1 + 1 := by
    rw [hp1, hp2]
    have hrw : ((j0 : ℚ) + 1) * w + fc.min = ((j0 : ℚ) * w + fc.min) + w := by ring
    rw [hrw]
    exact ppk_bracket ks w _ (fun i hi2 => by rw [hlen_ks] at hi2; exact hgap i hi2)
  rcases hbcases with hbe | hbe
  · -- no middle record: the cell pair is the answer for the whole cell
    have hneq : ¬ b2 = b1 + 1 := by omega
    have hbp : min (max p 1) (data.length - 1) = b1 := by omega
    simp only [RecordIndex.lookup_nearest, hcomp, hidx, hcell, if_neg hneq,
      hbsearch, hbp, hbe]
    rw [if_neg (show ¬ b1 = b1 + 1 by omega)]
  · -- a middle record: choose the half of the cell holding the value
    have hfacts : 1 ≤ p1 ∧ p1 = b1 ∧ p2 = p1 + 1 ∧ p2 = b2 ∧ b2 ≤ data.length - 1 ∧
        p1 ≤ data.length - 2 := by omega
    obtain ⟨hp1ge, hp1b, hp2s, hp2b, hb2le, hp1le⟩ := hfacts
    have hkey1 : kc.eval (data.getD (b1 - 1) default) = ks.getD (b1 - 1) 0 :=
      (getD_map_key data kc (b1 - 1) (by omega)).symm
    have hkeym : kc.eval (data.getD b1 default) = ks.getD b1 0 :=
      (getD_map_key data kc b1 (by omega)).symm
    have hcond1 : ks.getD (b1 - 1) 0 < val := by
      apply partitionPoint_lt_val ks val
      omega
    by_cases hvm : val ≤ ks.getD b1 0
    · have hple : p ≤ p1 := by
        by_contra hc
        push_neg at hc
        have : ks.getD p1 0 < val := partitionPoint_lt_val ks val p1 hc
        rw [← hp1b] at hvm
        linarith
      have hpeq : p = p1 := le_antisymm hple hp1p
      have hbp : min (max p 1) (data.length - 1) = b1 := by omega
      have hcondA : kc.eval (data.getD (b1 - 1) default) ≤ val ∧
          val ≤ kc.eval (data.getD b1 default) := by
        rw [hkey1, hkeym]
        exact ⟨le_of_lt hcond1, hvm⟩
      simp only [RecordIndex.lookup_nearest, hcomp, hidx, hcell, if_pos hbe,
        hbsearch, hbp]
      rw [if_pos hcondA]
    · push_neg at hvm
      have hplt : b1 < p := partitionPoint_mem_lt ks val hs b1 (by omega) hvm
      have hpeq : p = p1 + 1 := by omega
      have hbp : min (max p 1) (data.length - 1) = b1 + 1 := by omega
      have hsub : b1 + 1 - 1 = b1 := by omega
      have hb2eq : b2 = b1 + 1 := hbe
      have hcondN : ¬(kc.eval (data.getD (b1 - 1) default) ≤ val ∧
          val ≤ kc.eval (data.getD b1 default)) := by
        rw [hkey1, hkeym]
        intro hc
        exact absurd hc.2 (not_le.mpr hvm)
      simp only [RecordIndex.lookup_nearest, hcomp, hidx, hcell, if_pos hbe,
        hbsearch, hbp, hsub, hb2eq]
      simp only [if_true]
      rw [if_neg hcondN]


/-- Construction of the record index succeeds on every strictly-key-sorted
table with at least two records, and the stored compression satisfies the
invariants the lookup equivalence needs: the cell width is positive and no
wider than the smallest key gap. -/
theorem newBuild (data : List (MotorRecord ℚ)) (kc : KeyChoice)
    (hs : (data.map kc.eval).Sorted (· < ·)) (hm : 2 ≤ data.length) :
    ∃ (tbl : List IndexCell) (fc : FloatCompression) (stepsN : ℕ) (w : ℚ),
      RecordIndex.new data kc = some ⟨data, tbl, fc, kc⟩ ∧
      fc.steps = (stepsN : ℤ) ∧ 2 ≤ stepsN ∧
      (((fc.steps : ℤ) : ℚ) - 1) * w = fc.max - fc.min ∧ 0 < w ∧
      (∀ i, i + 1 < data.length →
        (data.map kc.eval).getD i 0 + w ≤ (data.map kc.eval).getD (i + 1) 0) ∧
      collectCells (cellAt data kc fc) (List.range stepsN) = some tbl ∧
      fc.min ≤ fc.max := by
  set ks := data.map kc.eval with hks
  have hlen_ks : ks.length = data.length := by rw [hks, List.length_map]
  have hlen_pd : (pairwiseDiffs ks).length = data.length - 1 := by
    rw [pairwiseDiffs_length, hlen_ks]
  cases hpd : pairwiseDiffs ks with
  | nil =>
    rw [hpd] at hlen_pd
    simp only [List.length_nil] at hlen_pd
    omega
  | cons d ds =>
    set mn := kc.eval (data.headD default) with hmn
    set mx := kc.eval (data.getLastD default) with hmx
    set ms := ds.foldl min d with hmsdef
    have hms_pos : 0 < ms := by
      apply pairwiseDiffs_pos ks hs
      rw [hpd, hmsdef]
      exact foldl_min_mem d ds
    have hmn0 : mn = ks.getD 0 0 := by
      rw [hks, getD_map_key data kc 0 (by omega), hmn, headD_eq_getD data (by omega)]
    have hmx0 : mx = ks.getD (data.length - 1) 0 := by
      rw [hks, getD_map_key data kc (data.length - 1) (by omega), hmx,
        getLastD_eq_getD data (by omega)]
    have hmxmn : 0 < mx - mn := by
      have h1 := sorted_getD_lt ks hs 0 (data.length - 1) (by omega) (by omega)
      rw [hmn0, hmx0]
      linarith
    set cN := Int.ceil ((mx - mn) / ms) with hcN
    have hcN_pos : 0 < cN := by
      rw [hcN]
      exact Int.ceil_pos.mpr (div_pos hmxmn hms_pos)
    set stepsN := cN.toNat + 1 with hstepsN
    have hst2 : 2 ≤ stepsN := by rw [hstepsN]; omega
    have hcNtoNat : ((cN.toNat : ℤ)) = cN := Int.toNat_of_nonneg (le_of_lt hcN_pos)
    have hstepsZ : ((stepsN : ℤ)) = cN + 1 := by
      rw [hstepsN]
      push_cast [hcNtoNat]
      ring
    have hcastS : ((stepsN : ℚ)) = (cN : ℚ) + 1 := by exact_mod_cast hstepsZ
    set fc : FloatCompression := ⟨mn, mx, (stepsN : ℤ)⟩ with hfc
    set w := (mx - mn) / ((stepsN : ℚ) - 1) with hwdef
    have hsN1 : (0 : ℚ) < (stepsN : ℚ) - 1 := by
      have h2 : (2 : ℚ) ≤ (stepsN : ℚ) := by exact_mod_cast hst2
      linarith
    have hwpos : 0 < w := by rw [hwdef]; exact div_pos hmxmn hsN1
    have hfcsteps : fc.steps = (stepsN : ℤ) := by rw [hfc]
    have hfcmin : fc.min = mn := by rw [hfc]
    have hfcmax : fc.max = mx := by rw [hfc]
    have hw : (((fc.steps : ℤ) : ℚ) - 1) * w = fc.max - fc.min := by
      rw [hfcsteps, hfcmax, hfcmin, hwdef]
      have hne : ((stepsN : ℚ) - 1) ≠ 0 := ne_of_gt hsN1
      push_cast
      field_simp
      have hpos : (0 : ℚ) < ((cN.toNat : ℕ) : ℚ) := by
        exact_mod_cast (show 0 < cN.toNat by omega)
      exact mul_div_cancel_left₀ _ (ne_of_gt hpos)
    have hle1 : (mx - mn) / ms ≤ (cN : ℚ) := by rw [hcN]; exact Int.le_ceil _
    have hcNq : (0 : ℚ) < (cN : ℚ) := by exact_mod_cast hcN_pos
    have hwms : w ≤ ms := by
      have hc1 : ((stepsN : ℚ) - 1) = (cN : ℚ) := by rw [hcastS]; ring
      rw [hwdef, hc1, div_le_iff hcNq, mul_comm ms ((cN : ℚ))]
      exact (div_le_iff hms_pos).mp hle1
    have hgap : ∀ i, i + 1 < data.length →
        ks.getD i 0 + w ≤ ks.getD (i + 1) 0 := by
      intro i hi
      have hilt : i < (pairwiseDiffs ks).length := by omega
      have hmemi : (pairwiseDiffs ks).getD i 0 ∈ pairwiseDiffs ks := by
        rw [List.getD_eq_get _ _ hilt]
        exact List.get_mem _ _ _
      have hmsle : ms ≤ (pairwiseDiffs ks).getD i 0 := by
        rw [hmsdef]
        apply foldl_min_le d ds
        rw [← hpd]
        exact hmemi
      have hdiff := pairwiseDiffs_getD ks i (by omega)
      rw [hdiff] at hmsle
      linarith
    have hcellsome : ∀ j ∈ List.range stepsN, ∃ c, cellAt data kc fc j = some c := by
      intro j hj
      have hst : (2 : ℤ) ≤ fc.steps := by
        rw [hfcsteps]
        exact_mod_cast hst2
      exact ⟨_, (cellAt_eq data kc fc w hs hm hst hw hwpos hgap j).1⟩
    obtain ⟨tbl, htbl⟩ :=
      collectCells_isSome (cellAt data kc fc) (List.range stepsN) hcellsome
    have hnotlt : ¬ data.length < 2 := by omega
    have hnew_eq : RecordIndex.new data kc
        = (collectCells (cellAt data kc fc) (List.range stepsN)).map
            (fun t => (⟨data, t, fc, kc⟩ : RecordIndex)) := by
      simp only [RecordIndex.new]
      rw [if_neg hnotlt, hks.symm, hpd]
    refine ⟨tbl, fc, stepsN, w, ?_, hfcsteps, hst2, hw, hwpos, hgap, htbl, ?_⟩
    · rw [hnew_eq, htbl]
      rfl
    · rw [hfcmin, hfcmax]
      linarith

/-- C10.  Indexed/binary-search lookup equivalence: for every index built
by RecordIndex::new from a strictly-key-sorted table and every key value
inside the covered range, the O(1) cell-indexed lookup selects the same
bracketing record pair as the binary search, and therefore the MotorData
lookup_by_force and lookup_by_current paths return the same record as the
binary_search paths for every interpolation mode and extrapolate flag. -/
theorem C10_lookup_equivalence (data : List (MotorRecord ℚ)) (kc : KeyChoice)
    (idx : RecordIndex)
    (hs : (data.map kc.eval).Sorted (· < ·))
    (hnew : RecordIndex.new data kc = some idx)
    (val : ℚ)
    (hvlo : idx.float_compression.min ≤ val)
    (hvhi : val ≤ idx.float_compression.max) :
    idx.lookup_nearest val = idx.binary_search_nearest val ∧
      (∀ (md : MotorData) (interp : Interpolation) (ex : Bool),
        md.force_index = idx →
          md.lookup_by_force val interp ex = md.binary_search_by_force val interp ex) ∧
      (∀ (md : MotorData) (interp : Interpolation) (ex : Bool),
        md.current_index = idx →
          md.lookup_by_current val interp ex = md.binary_search_by_current val interp ex) := by
  have hm : 2 ≤ data.length := by
    by_contra hc
    push_neg at hc
    simp only [RecordIndex.new] at hnew
    rw [if_pos hc] at hnew
    cases hnew
  obtain ⟨tbl, fc, stepsN, w, hnew2, hstN, hst2, hw, hwpos, hgap, hcc, _⟩ :=
    newBuild data kc hs hm
  have hidx : idx = ⟨data, tbl, fc, kc⟩ := by
    rw [hnew] at hnew2
    exact Option.some_inj.mp hnew2
  subst hidx
  have hvlo2 : fc.min ≤ val := hvlo
  have hvhi2 : val ≤ fc.max := hvhi
  have hcore := lookupNearest_eq_core data kc fc w tbl stepsN hs hm hstN hst2
    hw hwpos hgap hcc val hvlo2 hvhi2
  have hmain : RecordIndex.lookup_nearest ⟨data, tbl, fc, kc⟩ val
      = RecordIndex.binary_search_nearest ⟨data, tbl, fc, kc⟩ val := hcore
  refine ⟨hmain, ?_, ?_⟩
  · intro md interp ex hf
    simp only [MotorData.lookup_by_force, MotorData.binary_search_by_force, hf, hmain]
  · intro md interp ex hf
    simp only [MotorData.lookup_by_current, MotorData.binary_search_by_current, hf, hmain]

/-- C10 witness: on the concrete two-record table the built index exists
and its O(1) lookup at force 3/2 agrees with the binary search. -/
theorem C10_witness :
    RecordIndex.new [r0T2, r1T2] KeyChoice.force
        = some ⟨[r0T2, r1T2], [(r0T2, none, r1T2), (r0T2, none, r1T2)],
            ⟨1, 2, 2⟩, KeyChoice.force⟩ ∧
      RecordIndex.lookup_nearest
          ⟨[r0T2, r1T2], [(r0T2, none, r1T2), (r0T2, none, r1T2)], ⟨1, 2, 2⟩,
            KeyChoice.force⟩ (3 / 2)
        = RecordIndex.binary_search_nearest
          ⟨[r0T2, r1T2], [(r0T2, none, r1T2), (r0T2, none, r1T2)], ⟨1, 2, 2⟩,
            KeyChoice.force⟩ (3 / 2) :=
  ⟨by with_unfolding_all decide,
   (C10_lookup_equivalence [r0T2, r1T2] KeyChoice.force
      ⟨[r0T2, r1T2], [(r0T2, none, r1T2), (r0T2, none, r1T2)], ⟨1, 2, 2⟩,
        KeyChoice.force⟩
      (by with_unfolding_all decide) (by with_unfolding_all decide) (3 / 2)
      (by with_unfolding_all decide) (by with_unfolding_all decide)).1⟩

/-- C9 counterexample: a table containing a record whose force key is NaN
(a non-finite key) is accepted by the float-model construction: both index
builds succeed, so no error of any kind is raised for non-finite keys. -/
theorem C9_nan_key_accepted :
    fromRecordsW [recW0, recW1, recWn] = true ∧ recWn.force = FloatW.nan :=
  ⟨by with_unfolding_all decide, rfl⟩

/-- C9 amended.  Construction of a record index over a strictly-key-sorted
table fails (an assertion panic, modelled as none, not a recoverable
ConfigError) exactly when the table has fewer than two records; non-finite
keys are not rejected. -/
theorem C9_table_construction (data : List (MotorRecord ℚ)) (kc : KeyChoice)
    (hs : (data.map kc.eval).Sorted (· < ·)) :
    RecordIndex.new data kc = none ↔ data.length < 2 := by
  constructor
  · intro hnone
    by_contra hc
    push_neg at hc
    obtain ⟨tbl, fc, stepsN, w, hnew2, _⟩ := newBuild data kc hs hc
    rw [hnew2] at hnone
    cases hnone
  · intro hlt
    simp only [RecordIndex.new]
    rw [if_pos hlt]

/-- C9 witness: the two-record table is strictly sorted by force and its
construction does not fail. -/
theorem C9_witness :
    ([r0T2, r1T2].map KeyChoice.force.eval).Sorted (· < ·) ∧
      (RecordIndex.new [r0T2, r1T2] KeyChoice.force = none
        ↔ [r0T2, r1T2].length < 2) :=
  ⟨by with_unfolding_all decide,
   C9_table_construction [r0T2, r1T2] KeyChoice.force (by with_unfolding_all decide)⟩

end Robocode
